import Mathlib

/-!
Verification development for the html-content-processor library.

The TypeScript sources are shallowly embedded: DOM documents become an
inductive tree type, the pruning content filter (src/html-filter.ts), the
citation rewriter and URL joiner (src/markdown-generator.ts) and the two
DOM-to-Markdown serializers (src/html2text.ts and its synchronous variant)
become Lean functions over that tree.  JavaScript numbers are modelled as
exact fractions (an integer numerator with a positive denominator),
JavaScript strings as Lean strings manipulated through their character
lists so that every definition evaluates inside the kernel.  HTML parsing
and the host URL constructor are external collaborators of the library and
enter the model as explicit parameters (oracles) where needed.
-/

set_option maxHeartbeats 2000000
set_option maxRecDepth 10000

namespace HCP

/-! ## Character and string helpers (JS semantics, kernel computable) -/

/-- ASCII whitespace as used by JS `trim` and `\s` on the inputs we model. -/
def wsChar (c : Char) : Bool :=
  c == ' ' || c == '\t' || c == '\n' || c == '\r' || c == '\x0b' || c == '\x0c'

/-- Trim of a character list: drop whitespace from both ends. -/
def trimL (cs : List Char) : List Char :=
  ((cs.dropWhile wsChar).reverse.dropWhile wsChar).reverse

/-- JS `String.prototype.trim`. -/
def strTrim (s : String) : String := ⟨trimL s.data⟩

/-- JS `String.prototype.toLowerCase` (ASCII). -/
def strLower (s : String) : String := ⟨s.data.map Char.toLower⟩

/-- Does `p` occur at the start of `cs`? -/
def subAt : List Char → List Char → Bool
  | [], _ => true
  | _ :: _, [] => false
  | p :: ps, c :: cs => p == c && subAt ps cs

/-- Does the character list `cs` contain `pat` as a contiguous run? -/
def hasSub (cs pat : List Char) : Bool :=
  match cs with
  | [] => subAt pat []
  | _ :: t => subAt pat cs || hasSub t pat

/-- JS `String.prototype.startsWith`. -/
def strStarts (s p : String) : Bool := subAt p.data s.data

/-- JS `String.prototype.endsWith`. -/
def strEnds (s p : String) : Bool := subAt p.data.reverse s.data.reverse

/-- Auxiliary for `collapseWs`: the flag records whether the previous
character was whitespace (a run emits a single space). -/
def collapseWsAux : Bool → List Char → List Char
  | _, [] => []
  | prevWs, c :: cs =>
    if wsChar c then
      if prevWs then collapseWsAux true cs else ' ' :: collapseWsAux true cs
    else c :: collapseWsAux false cs

/-- JS `str.replace(/\s+/g, ' ')`: collapse each whitespace run to one space. -/
def collapseWs (s : String) : String := ⟨collapseWsAux false s.data⟩

/-- JS `str.split('\n')` on the character level. -/
def splitChar (sep : Char) : List Char → List (List Char)
  | [] => [[]]
  | c :: cs =>
    match splitChar sep cs with
    | [] => [[c]]
    | h :: t => if c == sep then [] :: h :: t else (c :: h) :: t

/-- JS `str.split('\n')`. -/
def splitLines (s : String) : List String := (splitChar '\n' s.data).map (⟨·⟩)

/-- Number of maximal non-whitespace runs; the flag records whether we are
inside a run. -/
def wordRunsAux : Bool → List Char → Nat
  | _, [] => 0
  | inW, c :: cs =>
    if wsChar c then wordRunsAux false cs
    else (if inW then 0 else 1) + wordRunsAux true cs

/-- `HtmlFilter.countWords`: JS `text ? text.trim().split(/\s+/).length : 0`.
An all-whitespace non-empty string splits to `[""]`, hence counts 1. -/
def jsCountWords (text : String) : Nat :=
  if text.data = [] then 0
  else
    let t := trimL text.data
    if t = [] then 1 else wordRunsAux false t

/-- JS `str.replace(/\|/g, '\\|')` used for Markdown table cells. -/
def escPipes (s : String) : String :=
  ⟨s.data.foldr (fun c acc => (if c == '|' then ['\\', '|'] else [c]) ++ acc) []⟩

/-! ## Exact fractions standing in for JS numbers

All arithmetic the filter performs is on rationals; we keep numerator and
denominator separate (denominators are positive by construction) so that
comparisons reduce inside the kernel. -/

structure Frac where
  num : Int
  den : Int
deriving DecidableEq

/-- Strict `<` by cross multiplication (valid for positive denominators). -/
def Frac.blt (a b : Frac) : Bool := a.num * b.den < b.num * a.den

def Frac.add (a b : Frac) : Frac := ⟨a.num * b.den + b.num * a.den, a.den * b.den⟩

def Frac.sub (a b : Frac) : Frac := ⟨a.num * b.den - b.num * a.den, a.den * b.den⟩

def Frac.mul (a b : Frac) : Frac := ⟨a.num * b.num, a.den * b.den⟩

/-- Division `a / b` (for positive `b`). -/
def Frac.divF (a b : Frac) : Frac := ⟨a.num * b.den, a.den * b.num⟩

def Frac.zero : Frac := ⟨0, 1⟩

def Frac.one : Frac := ⟨1, 1⟩

/-- The rational value of a fraction. -/
def Frac.toRat (a : Frac) : ℚ := (a.num : ℚ) / (a.den : ℚ)

/-! ## The DOM model

`src/dom-adapter.ts` supplies real documents; the core only reads tags,
class/id attributes, children, text and serializations, so a document is a
tree of text nodes, comment nodes and elements.  Serialization is the
canonical one (attributes double-quoted, explicit end tags). -/

inductive Dom where
  | text (s : String)
  | comment (s : String)
  | elem (tag : String) (attrs : List (String × String)) (children : List Dom)

def Dom.isElem : Dom → Bool
  | .elem _ _ _ => true
  | _ => false

def Dom.tag : Dom → String
  | .elem t _ _ => t
  | _ => ""

/-- `element.getAttribute(name)`, `null` becoming `none`. -/
def Dom.getAttr (name : String) : Dom → Option String
  | .elem _ attrs _ => (attrs.find? (fun p => p.1 == name)).map (·.2)
  | _ => none

/-- `element.className` (empty string when the attribute is absent). -/
def Dom.className (d : Dom) : String := (d.getAttr "class").getD ""

/-- `element.id` (empty string when the attribute is absent). -/
def Dom.idAttr (d : Dom) : String := (d.getAttr "id").getD ""

mutual

/-- `node.textContent`: all descendant text node data, comments excluded. -/
def Dom.textContent : Dom → String
  | .text s => s
  | .comment _ => ""
  | .elem _ _ cs => Dom.textContentList cs

def Dom.textContentList : List Dom → String
  | [] => ""
  | d :: ds => d.textContent ++ Dom.textContentList ds

end

/-- Attribute serialization ` k="v"...`. -/
def serAttrs (attrs : List (String × String)) : String :=
  attrs.foldl (fun acc p => acc ++ " " ++ p.1 ++ "=\"" ++ p.2 ++ "\"") ""

mutual

/-- `node.outerHTML` under the canonical serialization. -/
def Dom.outerHTML : Dom → String
  | .text s => s
  | .comment s => "<!--" ++ s ++ "-->"
  | .elem t a cs => "<" ++ t ++ serAttrs a ++ ">" ++ Dom.serList cs ++ "</" ++ t ++ ">"

def Dom.serList : List Dom → String
  | [] => ""
  | d :: ds => d.outerHTML ++ Dom.serList ds

end

/-- `element.innerHTML` under the canonical serialization. -/
def Dom.innerHTML : Dom → String
  | .elem _ _ cs => Dom.serList cs
  | _ => ""

/-- Element children (`element.children`). -/
def Dom.elemChildren : Dom → List Dom
  | .elem _ _ cs => cs.filter Dom.isElem
  | _ => []

mutual

/-- Node count of a tree, used as recursion fuel for the tree-walking
passes (any fuel at least this size makes the pass total). -/
def Dom.size : Dom → Nat
  | .text _ => 1
  | .comment _ => 1
  | .elem _ _ cs => 1 + Dom.sizeList cs

def Dom.sizeList : List Dom → Nat
  | [] => 0
  | d :: ds => Dom.size d + Dom.sizeList ds

end

/-- All descendant elements of the nodes of a forest, in document
(pre-)order.  The fuel bounds the recursion depth; callers supply
`Dom.sizeList`, which is always sufficient. -/
def Dom.descElemsF : Nat → List Dom → List Dom
  | 0, _ => []
  | fuel + 1, ds => ds.foldr (fun d acc =>
      match d with
      | .elem _ _ cs => d :: (Dom.descElemsF fuel cs ++ acc)
      | _ => acc) []

/-- All descendant elements of the nodes of a forest, in document order. -/
def Dom.descElemsList (ds : List Dom) : List Dom :=
  Dom.descElemsF (Dom.sizeList ds) ds

/-- `element.querySelectorAll(tag)`: descendant elements with that tag. -/
def Dom.queryTag (tag : String) (d : Dom) : List Dom :=
  match d with
  | .elem _ _ cs => (Dom.descElemsList cs).filter (fun e => e.tag == tag)
  | _ => []

/-- `element.querySelectorAll('td, th')`-style query for several tags
(results are in document order regardless of the selector order). -/
def Dom.queryTags (tags : List String) (d : Dom) : List Dom :=
  match d with
  | .elem _ _ cs => (Dom.descElemsList cs).filter (fun e => tags.contains e.tag)
  | _ => []

/-! ## HtmlFilter (src/html-filter.ts)

Configuration fixed by the constructor: `metricConfig` enables all five
metrics, `metricWeights` is {textDensity 0.4, linkDensity 0.2, tagWeight
0.2, classIdWeight 0.1, textLength 0.1}. -/

/-- `HtmlFilter.includedTags` (the "essential" allow-list). -/
def includedTags : List String :=
  ["article", "main", "section", "div",
   "ul", "ol", "li", "dl", "dt", "dd",
   "p", "span", "blockquote", "pre", "code",
   "h1", "h2", "h3", "h4", "h5", "h6",
   "table", "thead", "tbody", "tr", "td", "th",
   "figure", "figcaption", "details", "summary",
   "em", "strong", "b", "i", "mark", "small",
   "time", "address", "cite", "q"]

/-- `HtmlFilter.excludedTags`. -/
def excludedTags : List String :=
  ["nav", "footer", "header", "aside", "script", "style", "form", "iframe", "noscript"]

/-- The alternatives of `HtmlFilter.negativePattern`
`/nav|footer|header|sidebar|ads|comment|promo|advert|social|share/i`. -/
def negativeWords : List String :=
  ["nav", "footer", "header", "sidebar", "ads", "comment", "promo", "advert", "social", "share"]

/-- `negativePattern.test(s)` (case-insensitive substring alternatives). -/
def negMatch (s : String) : Bool :=
  negativeWords.any (fun w => hasSub (strLower s).data w.data)

/-- `HtmlFilter.tagImportance`. -/
def tagImportance : List (String × Frac) :=
  [("article", ⟨15, 10⟩), ("main", ⟨14, 10⟩), ("section", ⟨13, 10⟩),
   ("p", ⟨12, 10⟩), ("h1", ⟨14, 10⟩), ("h2", ⟨13, 10⟩), ("h3", ⟨12, 10⟩),
   ("div", ⟨7, 10⟩), ("span", ⟨6, 10⟩)]

/-- `HtmlFilter.tagWeights`. -/
def tagWeights : List (String × Frac) :=
  [("div", ⟨5, 10⟩), ("p", ⟨10, 10⟩), ("article", ⟨15, 10⟩), ("section", ⟨10, 10⟩),
   ("span", ⟨3, 10⟩), ("li", ⟨5, 10⟩), ("ul", ⟨5, 10⟩), ("ol", ⟨5, 10⟩),
   ("h1", ⟨12, 10⟩), ("h2", ⟨11, 10⟩), ("h3", ⟨10, 10⟩), ("h4", ⟨9, 10⟩),
   ("h5", ⟨8, 10⟩), ("h6", ⟨7, 10⟩)]

/-- Assoc-list lookup with a default (JS `table[k] || d` for tables whose
stored values are never falsy). -/
def lookupFr (tbl : List (String × Frac)) (k : String) (d : Frac) : Frac :=
  match tbl.find? (fun p => p.1 == k) with
  | some p => p.2
  | none => d

inductive ThresholdKind where
  | fixed
  | dynamic
deriving DecidableEq

/-- The per-instance configuration of `HtmlFilter` (constructor arguments). -/
structure FilterCfg where
  minWordCount : Nat
  thresholdKind : ThresholdKind
  threshold : Frac

/-- `new HtmlFilter()`: minWordCount 2, fixed threshold 0.48. -/
def defaultFilterCfg : FilterCfg := ⟨2, .fixed, ⟨48, 100⟩⟩

/-- `HtmlFilter.computeClassIdWeight`: −0.5 when class+id matches the
negative pattern, else 0. -/
def computeClassIdWeight (node : Dom) : Frac :=
  let classAndId := strLower (node.className ++ " " ++ node.idAttr)
  if negMatch classAndId then Frac.sub Frac.zero ⟨5, 10⟩ else Frac.zero

/-- `HtmlFilter.computeCompositeScore`, with every `metricConfig` flag true
and the constructor's `metricWeights`.  Mirrors the sequential
accumulation of `score` and `totalWeight` in the source. -/
def computeCompositeScore (node : Dom) (textLen tagLen linkTextLen : Nat) : Frac :=
  let density : Frac := if tagLen > 0 then ⟨textLen, tagLen⟩ else Frac.zero
  let score1 := Frac.add Frac.zero (Frac.mul density ⟨4, 10⟩)
  let linkDensity : Frac := if textLen > 0 then ⟨linkTextLen, textLen⟩ else Frac.zero
  let score2 := Frac.sub score1 (Frac.mul linkDensity ⟨2, 10⟩)
  let tagWeight := lookupFr tagWeights node.tag ⟨5, 10⟩
  let score3 := Frac.add score2 (Frac.mul tagWeight ⟨2, 10⟩)
  let score4 := Frac.add score3 (Frac.mul (computeClassIdWeight node) ⟨1, 10⟩)
  let lengthScore : Frac := if Frac.blt ⟨textLen, 100⟩ Frac.one then ⟨textLen, 100⟩ else Frac.one
  let score5 := Frac.add score4 (Frac.mul lengthScore ⟨1, 10⟩)
  let totalWeight : Frac :=
    Frac.add (Frac.add (Frac.add (Frac.add ⟨4, 10⟩ ⟨2, 10⟩) ⟨2, 10⟩) ⟨1, 10⟩) ⟨1, 10⟩
  if Frac.blt Frac.zero totalWeight then Frac.divF score5 totalWeight else Frac.zero

/-- The metrics `pruneTree` computes on entering a node, and the resulting
removal decision.  `Math.min(1, textLen/100)` is inlined in `lengthScore`. -/
def shouldRemoveNode (cfg : FilterCfg) (node : Dom) : Bool :=
  let textLen := (strTrim node.textContent).length
  let tagLen := node.innerHTML.length
  let linkTextLen :=
    (Dom.queryTag "a" node).foldl (fun s a => s + (strTrim a.textContent).length) 0
  let score := computeCompositeScore node textLen tagLen linkTextLen
  match cfg.thresholdKind with
  | .fixed => Frac.blt score cfg.threshold
  | .dynamic =>
    let tagImportanceValue := lookupFr tagImportance node.tag ⟨7, 10⟩
    let textRatio : Frac := if tagLen > 0 then ⟨textLen, tagLen⟩ else Frac.zero
    let th1 :=
      if Frac.blt Frac.one tagImportanceValue then Frac.mul cfg.threshold ⟨8, 10⟩
      else cfg.threshold
    let th2 := if Frac.blt ⟨4, 10⟩ textRatio then Frac.mul th1 ⟨9, 10⟩ else th1
    Frac.blt score th2

/-- `HtmlFilter.pruneTree`, functionally: `none` means the node detached
itself from its parent.  `canRemove` is the source's guard
`node.parentNode && node.parentNode !== node.ownerDocument`; recursive
calls pass `true` because a child's parent is an element.  Text and
comment nodes are untouched (the source iterates `node.children`).
The fuel argument only bounds the recursion depth; `pruneTree` supplies
`Dom.size`, which is always sufficient, and exhausted fuel leaves the
subtree unchanged. -/
def pruneNodeF (cfg : FilterCfg) (canRemove : Bool) : Nat → Dom → Option Dom
  | 0, d => some d
  | fuel + 1, .elem tag attrs children =>
    let node := Dom.elem tag attrs children
    if shouldRemoveNode cfg node && canRemove then none
    else
      let children' := children.filterMap (fun c =>
        match c with
        | .elem _ _ _ => pruneNodeF cfg true fuel c
        | _ => some c)
      let node' := Dom.elem tag attrs children'
      if node'.elemChildren.isEmpty && (strTrim node'.textContent).length == 0
          && !(includedTags.contains tag)
          && decide (jsCountWords node'.textContent < cfg.minWordCount) && canRemove
      then none
      else some node'
  | _ + 1, d => some d

/-- `HtmlFilter.pruneTree` entry point on a node: `none` when the node
detached itself from its parent. -/
def pruneTree (cfg : FilterCfg) (canRemove : Bool) (d : Dom) : Option Dom :=
  pruneNodeF cfg canRemove (Dom.size d) d

/-- The state of the captured `body` reference after `pruneTree(body)`
ran: when the body removes itself at the initial score check it returns
before pruning its children, so the reference keeps the unpruned
children; otherwise the children have been pruned in place (whether or
not the final empty-node check then detached the body, detachment does
not alter its children). -/
def pruneBody (cfg : FilterCfg) (body : Dom) : Dom :=
  match body with
  | .elem tag attrs children =>
    if shouldRemoveNode cfg (Dom.elem tag attrs children) then Dom.elem tag attrs children
    else
      Dom.elem tag attrs (children.filterMap (fun c =>
        match c with
        | .elem _ _ _ => pruneNodeF cfg true (Dom.sizeList children) c
        | _ => some c))
  | d => d

/-- One level of `HtmlFilter.removeComments`: strip every comment node. -/
def removeCommentsF : Nat → List Dom → List Dom
  | 0, ds => ds
  | fuel + 1, ds => ds.filterMap (fun d =>
      match d with
      | .comment _ => none
      | .elem t a cs => some (.elem t a (removeCommentsF fuel cs))
      | d => some d)

/-- `HtmlFilter.removeComments` on a document node. -/
def removeCommentsDom (d : Dom) : Dom :=
  match d with
  | .elem t a cs => .elem t a (removeCommentsF (Dom.size d) cs)
  | d => d

/-- One level of `HtmlFilter.removeUnwantedTags`: detach every element
whose tag is in `excludedTags`.  The source iterates
`getElementsByTagName` per excluded tag; the net effect on the document
is this recursive filter. -/
def removeUnwantedF : Nat → List Dom → List Dom
  | 0, ds => ds
  | fuel + 1, ds => ds.filterMap (fun d =>
      match d with
      | .elem t a cs =>
        if excludedTags.contains t then none
        else some (.elem t a (removeUnwantedF fuel cs))
      | d => some d)

/-- `HtmlFilter.removeUnwantedTags` on a document node. -/
def removeUnwanted (d : Dom) : Dom :=
  match d with
  | .elem t a cs => .elem t a (removeUnwantedF (Dom.size d) cs)
  | d => d

/-- The raw child list of a node. -/
def Dom.childrenOf : Dom → List Dom
  | .elem _ _ cs => cs
  | _ => []

mutual

/-- No element in this tree (the root included) carries an excluded tag. -/
def noExcludedDom : Dom → Bool
  | .elem t _ cs => !(excludedTags.contains t) && noExcludedList cs
  | _ => true

def noExcludedList : List Dom → Bool
  | [] => true
  | d :: ds => noExcludedDom d && noExcludedList ds

end

/-- The fragment collection loop of `HtmlFilter.filterContent`: the
`outerHTML` of each element child of the body whose trimmed text content
is non-empty, in document order. -/
def collectFragments (b : Dom) : List String :=
  (b.elemChildren.filter (fun c => (strTrim c.textContent).length > 0)).map Dom.outerHTML

/-- The body of `HtmlFilter.filterContent` after parsing: strip comments,
remove excluded tags, prune, then collect the fragments from the captured
`body` reference (which may have been detached from the document). -/
def bodyFragments (cfg : FilterCfg) (body : Dom) : List String :=
  collectFragments (pruneBody cfg (removeUnwanted (removeCommentsDom body)))

/-- `HtmlFilter.filterContent` on a raw HTML string: parsing is the external
collaborator `parse` (a `DOMParser` the library does not own). -/
def filterContent (parse : String → Dom) (cfg : FilterCfg) (html : String) : List String :=
  if html = "" then [] else bodyFragments cfg (parse html)

/-- `HtmlFilter.filterContentAsString`. -/
def filterContentAsString (parse : String → Dom) (cfg : FilterCfg) (html : String) : String :=
  String.join (filterContent parse cfg html)

/-- The state update of `HtmlProcessor.filter`:
`this.currentHtml = filteredContent || this.currentHtml`. -/
def processorFilterStep (parse : String → Dom) (cfg : FilterCfg) (current : String) : String :=
  let filteredContent := filterContentAsString parse cfg current
  if filteredContent = "" then current else filteredContent

/-! ## Concrete example documents -/

/-- A parsed body holding one empty `div` (e.g. the parse of
`<div></div>`). -/
def emptyDivBody : Dom := .elem "body" [] [.elem "div" [] []]

/-- A parsed body holding a `nav` element whose class contains the
content-indicating token `content`, next to an `article`. -/
def navContentDoc : Dom :=
  .elem "body" []
    [.elem "nav" [("class", "content")] [.text "Site news"],
     .elem "article" [] [.text "Body text"]]

/-- Modelled from the spec: the external parsing collaborator (DOMParser),
on the input `<div></div>` — the body has a single empty div child. -/
def pruneAllParse : String → Dom := fun _ => emptyDivBody

/-- Modelled from the spec: the external parsing collaborator (DOMParser),
on the input `<p>xx` — an HTML5 parser completes the unclosed paragraph,
so the body's single child serializes back as `<p>xx</p>`. -/
def parseHtml5P : String → Dom := fun _ => .elem "body" [] [.elem "p" [] [.text "xx"]]

/-- Modelled from the spec: the external parsing collaborator (DOMParser),
on the input `<p>Hello world</p>` — a round-tripping parse. -/
def helloParse : String → Dom := fun _ => .elem "body" [] [.elem "p" [] [.text "Hello world"]]

/-- An element node used to evaluate the scoring formulas. -/
def divNode : Dom := .elem "div" [] []

/-- The composite-score formula exactly as the specification states it:
weights 0.35 (density), 0.25 (tag weight), 0.15 (class/id penalty),
0.15 (link density, subtracted), 0.10 (length score), normalized by the
total applied weight. -/
def specCompositeScore (node : Dom) (textLen tagLen linkTextLen : Nat) : ℚ :=
  let density : ℚ := if tagLen > 0 then (textLen : ℚ) / (tagLen : ℚ) else 0
  let linkDensity : ℚ := if textLen > 0 then (linkTextLen : ℚ) / (textLen : ℚ) else 0
  let tagWeight : ℚ := (lookupFr tagWeights node.tag ⟨5, 10⟩).toRat
  let classIdPenalty : ℚ := (computeClassIdWeight node).toRat
  let lengthScore : ℚ := min 1 ((textLen : ℚ) / 100)
  (density * (35/100) + tagWeight * (25/100) + classIdPenalty * (15/100)
      - linkDensity * (15/100) + lengthScore * (10/100))
    / (35/100 + 25/100 + 15/100 + 15/100 + 10/100)

/-- The same formula with the weights the code actually applies
(`metricWeights`): 0.4 (density), 0.2 (tag weight), 0.1 (class/id
penalty), 0.2 (link density, subtracted), 0.1 (length score), normalized
by the total applied weight 1.0. -/
def codeCompositeFormula (node : Dom) (textLen tagLen linkTextLen : Nat) : ℚ :=
  let density : ℚ := if tagLen > 0 then (textLen : ℚ) / (tagLen : ℚ) else 0
  let linkDensity : ℚ := if textLen > 0 then (linkTextLen : ℚ) / (textLen : ℚ) else 0
  let tagWeight : ℚ := (lookupFr tagWeights node.tag ⟨5, 10⟩).toRat
  let classIdPenalty : ℚ := (computeClassIdWeight node).toRat
  let lengthScore : ℚ := min 1 ((textLen : ℚ) / 100)
  (density * (4/10) + tagWeight * (2/10) + classIdPenalty * (1/10)
      - linkDensity * (2/10) + lengthScore * (1/10))
    / (4/10 + 2/10 + 2/10 + 1/10 + 1/10)

/-! ## URL resolution (src/markdown-generator.ts)

The host `URL` constructor is an external collaborator; it enters the
model as an oracle.  `parseBase s` is `new URL(s)` — `some (protocol,
host)` with `protocol` carrying its trailing colon, `none` when the
constructor throws.  `resolveRel url base` is `new URL(url, base).href`,
`none` when it throws. -/

structure UrlOracle where
  parseBase : String → Option (String × String)
  resolveRel : String → String → Option String

/-- JS `baseUrl.slice(0, -1)`. -/
def strDropLast (s : String) : String := ⟨s.data.dropLast⟩

/-- `fastUrlJoin` from src/markdown-generator.ts. -/
def fastUrlJoin (o : UrlOracle) (baseUrl url : String) : String :=
  if strStarts url "http://" || strStarts url "https://" ||
      strStarts url "mailto:" || strStarts url "//" || strStarts url "data:" then url
  else if strStarts url "/" then
    if baseUrl ≠ "" then
      match o.parseBase baseUrl with
      | some ph => ph.1 ++ "//" ++ ph.2 ++ url
      | none => if strEnds baseUrl "/" then strDropLast baseUrl ++ url else baseUrl ++ url
    else url
  else
    if baseUrl ≠ "" then
      match o.resolveRel url baseUrl with
      | some href => href
      | none => url
    else url

/-- Modelled from the spec: an oracle for a base string on which the host
URL constructor throws (a string without a scheme, such as `base`, is not
a valid absolute URL). -/
def failOracle : UrlOracle := ⟨fun _ => none, fun _ _ => none⟩

/-! ## The citation rewriter (DefaultMarkdownGenerator.convertLinksToRefs)

`LINK_PATTERN` is `/!?\[([^\]]+)\]\(([^)]+?)(?:\s+"([^"]*)")?\)/g`; the
scanner below implements its backtracking semantics: an optional `!`, a
bracketed non-empty text without `]`, then `(`, a lazy non-empty URL
without `)`, an optional whitespace-preceded double-quoted title, and
`)`. -/

structure Span where
  isImage : Bool
  text : String
  url : String
  title : Option String
deriving DecidableEq

/-- The optional title part `(?:\s+"([^"]*)")?` followed by `)`: at least
one whitespace character, then a quoted title, then the closing paren.
Only called when the head of `cs` is whitespace. -/
def tryTitle (cs : List Char) : Option (String × List Char) :=
  match cs.dropWhile wsChar with
  | '"' :: rest =>
    let tit := rest.takeWhile (fun c => !(c == '"'))
    (match rest.dropWhile (fun c => !(c == '"')) with
     | '"' :: ')' :: rest3 => some (⟨tit⟩, rest3)
     | _ => none)
  | _ => none

/-- The lazy URL part `([^)]+?)` with its terminator: scanning left to
right, at each position with a non-empty URL candidate the title branch
is tried first (when the next character is whitespace), then the bare
`)`; otherwise the URL is extended. -/
def urlScan : List Char → List Char → Option (String × Option String × List Char)
  | _, [] => none
  | acc, c :: rest =>
    if c == ')' then
      if acc.isEmpty then none else some (⟨acc⟩, none, rest)
    else if wsChar c && !acc.isEmpty then
      match tryTitle (c :: rest) with
      | some tr => some (⟨acc⟩, some tr.1, tr.2)
      | none => urlScan (acc ++ [c]) rest
    else urlScan (acc ++ [c]) rest

/-- Matching of the bracketed part, positioned right after `[`: a
non-empty text without `]`, then `](`, then the URL part. -/
def matchBracket (isImage : Bool) (cs : List Char) : Option (Span × List Char) :=
  let text := cs.takeWhile (fun c => !(c == ']'))
  if text.isEmpty then none
  else
    match cs.dropWhile (fun c => !(c == ']')) with
    | ']' :: '(' :: rest =>
      (match urlScan [] rest with
       | some utr => some (⟨isImage, ⟨text⟩, utr.1, utr.2.1⟩, utr.2.2)
       | none => none)
    | _ => none

/-- One attempt of `LINK_PATTERN` at the current position (greedy `!?`
first; a failed image match cannot fall back to a link match at the same
position because `[` cannot equal `!`). -/
def matchSpanAt : List Char → Option (Span × List Char)
  | '!' :: '[' :: rest => matchBracket true rest
  | '[' :: rest => matchBracket false rest
  | _ => none

/-- The `exec` loop: find matches left to right, keeping the unmatched
gaps.  Returns the (gap, match) pairs and the trailing gap. -/
def scanAux : Nat → List Char → List Char → List (String × Span) × String
  | 0, gap, cs => ([], ⟨gap.reverse ++ cs⟩)
  | _ + 1, gap, [] => ([], ⟨gap.reverse⟩)
  | fuel + 1, gap, c :: cs =>
    match matchSpanAt (c :: cs) with
    | some sr =>
      let rec2 := scanAux fuel [] sr.2
      ((⟨gap.reverse⟩, sr.1) :: rec2.1, rec2.2)
    | none => scanAux fuel (c :: gap) cs

/-- All `LINK_PATTERN` matches of a markdown string, with the surrounding
unmatched text. -/
def scanSpans (markdown : String) : List (String × Span) × String :=
  scanAux markdown.data.length [] markdown.data

/-- The absolute-URL test of `convertLinksToRefs` (protocol-relative `//`
is not in this list; `fastUrlJoin` passes it through unchanged anyway). -/
def urlIsAbsolute (url : String) : Bool :=
  strStarts url "http://" || strStarts url "https://" ||
    strStarts url "mailto:" || strStarts url "data:"

/-- URL resolution per span (the `urlCache` of the source memoizes a pure
function and is observationally transparent). -/
def resolveSpanUrl (o : UrlOracle) (baseUrl url : String) : String :=
  if baseUrl ≠ "" && !(urlIsAbsolute url) then fastUrlJoin o baseUrl url else url

structure RefInfo where
  refNum : Nat
  description : String
deriving DecidableEq

/-- The reference description: the title when truthy, then the trimmed
text when non-empty and different from the title, joined by `" - "` after
a leading `": "`. -/
def spanDescription (text : String) (title : Option String) : String :=
  let d1 : List String :=
    match title with
    | some t => if t = "" then [] else [t]
    | none => []
  let keepText : Bool :=
    !(text == "") && !(strTrim text == "") &&
      (match title with
       | some t => !(text == t)
       | none => true)
  let descs := d1 ++ (if keepText then [strTrim text] else [])
  if descs.isEmpty then "" else ": " ++ String.intercalate " - " descs

/-- The state of the rewriting loop: emitted parts, the insertion-ordered
link map, the next id, and (ghost, for specification only) the id emitted
for each processed span. -/
structure CvtState where
  parts : List String
  linkMap : List (String × RefInfo)
  counter : Nat
  nums : List Nat

/-- The id recorded for a resolved URL (0 is unreachable: the loop looks
up a key it just ensured is present). -/
def lookupRefNum (entries : List (String × RefInfo)) (url : String) : Nat :=
  match entries.find? (fun p => p.1 == url) with
  | some p => p.2.refNum
  | none => 0

/-- The replacement emitted for one matched span:
`text⟨id⟩` for links, `![text⟨id⟩]` for images. -/
def spanReplacement (isImage : Bool) (refText : String) (refNum : Nat) : String :=
  if !isImage then refText ++ "⟨" ++ toString refNum ++ "⟩"
  else "![" ++ refText ++ "⟨" ++ toString refNum ++ "⟩]"

/-- One iteration of the `while ((match = LINK_PATTERN.exec(...)))` loop:
push the gap, ensure the resolved URL has an id (first occurrence takes
the next counter value), and push the replacement span
`text⟨id⟩` / `![text⟨id⟩]`, with the resolved URL as display text when
the trimmed text is empty. -/
def processSpan (o : UrlOracle) (baseUrl : String) (st : CvtState) (gap : String)
    (sp : Span) : CvtState :=
  let resolvedUrl := resolveSpanUrl o baseUrl sp.url
  let found := (st.linkMap.find? (fun p => p.1 == resolvedUrl)).isSome
  let linkMap :=
    if found then st.linkMap
    else st.linkMap ++ [(resolvedUrl, ⟨st.counter, spanDescription sp.text sp.title⟩)]
  let counter := if found then st.counter else st.counter + 1
  let refNum := lookupRefNum linkMap resolvedUrl
  let refText := if strTrim sp.text = "" then resolvedUrl else strTrim sp.text
  ⟨st.parts ++ [gap, spanReplacement sp.isImage refText refNum], linkMap, counter,
    st.nums ++ [refNum]⟩

/-- The whole rewriting loop over the scanned spans. -/
def cvtFold (o : UrlOracle) (baseUrl : String) (st : CvtState)
    (pairs : List (String × Span)) : CvtState :=
  pairs.foldl (fun st p => processSpan o baseUrl st p.1 p.2) st

/-- The final link map of `convertLinksToRefs` for a markdown input. -/
def refEntries (o : UrlOracle) (markdown baseUrl : String) : List (String × RefInfo) :=
  (cvtFold o baseUrl ⟨[], [], 1, []⟩ (scanSpans markdown).1).linkMap

/-- The ids emitted for the successive matches of a markdown input. -/
def spanRefNums (o : UrlOracle) (markdown baseUrl : String) : List Nat :=
  (cvtFold o baseUrl ⟨[], [], 1, []⟩ (scanSpans markdown).1).nums

/-- The link map sorted by id, as listed in the references block. -/
def sortedRefEntries (o : UrlOracle) (markdown baseUrl : String) :
    List (String × RefInfo) :=
  (refEntries o markdown baseUrl).mergeSort (fun a b => a.2.refNum ≤ b.2.refNum)

/-- `DefaultMarkdownGenerator.convertLinksToRefs`: the converted text and
the references block. -/
def convertLinksToRefs (o : UrlOracle) (markdown : String) (baseUrl : String := "") :
    String × String :=
  let scanned := scanSpans markdown
  let st := cvtFold o baseUrl ⟨[], [], 1, []⟩ scanned.1
  let convertedText := String.join (st.parts ++ [scanned.2])
  if st.linkMap.isEmpty then (convertedText, "")
  else
    let references :=
      ["\n\n## References\n\n"] ++
        (sortedRefEntries o markdown baseUrl).map
          (fun p => "⟨" ++ toString p.2.refNum ++ "⟩ " ++ p.1 ++ p.2.description ++ "\n")
    (convertedText, String.join references)

/-- URLs in order of first appearance (deduplication key order). -/
def firstOccAux (acc : List String) : List String → List String
  | [] => acc
  | u :: us => firstOccAux (if acc.contains u then acc else acc ++ [u]) us

/-- The distinct members of a list, in order of first appearance. -/
def firstOccurrences (us : List String) : List String := firstOccAux [] us

/-! ## CustomHtml2Text (src/html2text.ts, and the synchronous variant)

Both serializers render a parsed document tree to Markdown.  They are
embedded with recursion fuel (a depth bound; `handle` supplies the node
count, which always suffices).  The per-tag dispatch of `domToMarkdown`
is reproduced arm by arm; `processChildren`, `processList`,
`processBlockquote` and `processTable` become helpers parameterized by
the recursive renderer.  `domToMarkdown` is only reached for element
nodes (the dispatcher in `processChildren` sends text nodes elsewhere
and skips comments); the non-element arm returns the empty string. -/

/-- The option fields `domToMarkdown` actually reads (constructor
defaults: emphasis/links/images not ignored, internal links skipped,
super/subscript off). -/
structure H2TOptions where
  ignoreEmphasis : Bool
  ignoreLinks : Bool
  ignoreImages : Bool
  skipInternalLinks : Bool
  includeSuperSub : Bool
deriving DecidableEq

def defaultH2TOptions : H2TOptions := ⟨false, false, false, true, false⟩

/-- `CustomHtml2Text.resolveUrl` (identical in both variants). -/
def resolveUrlH2T (o : UrlOracle) (baseUrl url : String) : String :=
  if baseUrl = "" || strStarts url "http" || strStarts url "//" || strStarts url "data:"
  then url
  else
    match o.resolveRel url baseUrl with
    | some href => href
    | none => url

/-- The first capture of `/language-(\S+)/` on a class string: the first
occurrence of `language-` followed by at least one non-whitespace
character. -/
def langSearch : List Char → Option String
  | [] => none
  | c :: rest =>
    if subAt ("language-".data) (c :: rest) then
      let tok := ((c :: rest).drop 9).takeWhile (fun ch => !(wsChar ch))
      if tok.isEmpty then langSearch rest else some ⟨tok⟩
    else langSearch rest

/-- The tags stripped by `cleanDocument` (scripts, styles, then iframe,
noscript and svg), identical in both variants. -/
def cleanTags : List String := ["script", "style", "iframe", "noscript", "svg"]

/-- `cleanDocument`, as a recursive filter over the tree. -/
def cleanDocF : Nat → List Dom → List Dom
  | 0, ds => ds
  | fuel + 1, ds => ds.filterMap (fun d =>
      match d with
      | .elem t a cs =>
        if cleanTags.contains t then none
        else some (.elem t a (cleanDocF fuel cs))
      | d => some d)

/-- `cleanDocument` on the body node. -/
def cleanDocDom (d : Dom) : Dom :=
  match d with
  | .elem t a cs => .elem t a (cleanDocF (Dom.size d) cs)
  | d => d

/-- `processChildren` of the async variant: text nodes have whitespace
runs collapsed, element children are rendered recursively (with this
element's tag as their parent tag), comments are skipped. -/
def jsProcChildren (render : String → Dom → String) (tag : String)
    (children : List Dom) : String :=
  String.join (children.map (fun n =>
    match n with
    | .text s => collapseWs s
    | .comment _ => ""
    | e => render tag e))

/-- `processChildren` of the synchronous variant: identical except for a
final trim of the concatenation. -/
def sProcChildren (render : String → Dom → String) (tag : String)
    (children : List Dom) : String :=
  strTrim (String.join (children.map (fun n =>
    match n with
    | .text s => collapseWs s
    | .comment _ => ""
    | e => render tag e)))

/-- `processList` (same logic in both variants): all `li` descendants in
document order; `ol` numbers them `1.`, `2.`, … regardless of nesting. -/
def jsProcList (pc : String → List Dom → String) (marker : String) (el : Dom) : String :=
  String.join ((Dom.queryTag "li" el).enum.map (fun p =>
    (if marker == "1." then toString (p.1 + 1) ++ ". " else marker ++ " ") ++
      strTrim (pc "li" p.2.childrenOf) ++ "\n"))

/-- `processBlockquote` (same logic in both variants). -/
def jsProcBlockquote (pc : String → List Dom → String) (el : Dom) : String :=
  let content := strTrim (pc "blockquote" el.childrenOf)
  String.intercalate "\n" ((splitLines content).map (fun line => "> " ++ line)) ++ "\n"

/-- `processTable` of the async variant: every row's `td, th` cells are
rendered recursively, pipe-escaped, and a `---` separator (space-padded)
follows the first row. -/
def aProcTable (pc : String → List Dom → String) (table : Dom) : String :=
  String.join ((Dom.queryTag "tr" table).enum.map (fun p =>
    let cellContents := (Dom.queryTags ["td", "th"] p.2).map
      (fun cell => escPipes (strTrim (pc cell.tag cell.childrenOf)))
    "| " ++ String.intercalate " | " cellContents ++ " |\n" ++
      (if p.1 = 0 then
        "| " ++ String.intercalate " | " (cellContents.map (fun _ => "---")) ++ " |\n"
       else "")))

/-- `processTable` of the synchronous variant: raw cell text, a separator
without padding, and body cells taken from `td` only. -/
def sProcTable (table : Dom) : String :=
  match Dom.queryTag "tr" table with
  | [] => ""
  | headerRow :: bodyRows =>
    let headerCells := (Dom.queryTags ["th", "td"] headerRow).map
      (fun cell => escPipes (strTrim cell.textContent))
    "| " ++ String.intercalate " | " headerCells ++ " |\n" ++
      ("|" ++ String.intercalate "|" (headerCells.map (fun _ => "---")) ++ "|\n") ++
      String.join (bodyRows.map (fun row =>
        "| " ++ String.intercalate " | "
          ((Dom.queryTag "td" row).map (fun cell => escPipes (strTrim cell.textContent)))
          ++ " |\n"))

/-- The title suffix ` "title"` of links and images (empty when the
attribute is absent or empty/falsy). -/
def titleSuffix (el : Dom) : String :=
  match el.getAttr "title" with
  | some t => if t = "" then "" else " \"" ++ t ++ "\""
  | none => ""

/-- `domToMarkdown` of the async variant (src/html2text.ts). -/
def aDom (opts : H2TOptions) (o : UrlOracle) (baseUrl : String) :
    Nat → String → Dom → String
  | 0, _, _ => ""
  | fuel + 1, parentTag, .elem tag attrs children =>
    let el := Dom.elem tag attrs children
    let render := fun (ptag : String) (e : Dom) => aDom opts o baseUrl fuel ptag e
    let pc := jsProcChildren render
    match tag with
    | "h1" => "\n# " ++ strTrim el.textContent ++ "\n\n"
    | "h2" => "\n## " ++ strTrim el.textContent ++ "\n\n"
    | "h3" => "\n### " ++ strTrim el.textContent ++ "\n\n"
    | "h4" => "\n#### " ++ strTrim el.textContent ++ "\n\n"
    | "h5" => "\n##### " ++ strTrim el.textContent ++ "\n\n"
    | "h6" => "\n###### " ++ strTrim el.textContent ++ "\n\n"
    | "p" => strTrim (pc tag children) ++ "\n\n"
    | "br" => "\n"
    | "hr" => "\n---\n\n"
    | "ul" => jsProcList pc "*" el ++ "\n"
    | "ol" => jsProcList pc "1." el ++ "\n"
    | "li" => "* " ++ strTrim (pc tag children) ++ "\n"
    | "blockquote" => jsProcBlockquote pc el ++ "\n"
    | "pre" =>
      let codeElement := (Dom.queryTag "code" el).head?
      let codeContent :=
        match codeElement with
        | some c => c.textContent
        | none => el.textContent
      let lang :=
        match codeElement with
        | some c => (langSearch (Dom.className c).data).getD ""
        | none => ""
      "\n```" ++ lang ++ "\n" ++ strTrim codeContent ++ "\n```\n\n"
    | "code" =>
      if parentTag == "pre" then strTrim el.textContent
      else "`" ++ strTrim el.textContent ++ "`"
    | "a" =>
      if opts.ignoreLinks then strTrim el.textContent
      else
        let href := (el.getAttr "href").getD ""
        let text := strTrim el.textContent
        if opts.skipInternalLinks && (strStarts href "#" || href == "") then text
        else
          let url := resolveUrlH2T o baseUrl href
          if text ≠ "" then "[" ++ text ++ "](" ++ url ++ titleSuffix el ++ ")"
          else "<" ++ url ++ ">"
    | "img" =>
      if !opts.ignoreImages then
        "![" ++ (el.getAttr "alt").getD "" ++ "](" ++
          resolveUrlH2T o baseUrl ((el.getAttr "src").getD "") ++ titleSuffix el ++ ")"
      else ""
    | "strong" =>
      if !opts.ignoreEmphasis then "**" ++ strTrim (pc tag children) ++ "**"
      else strTrim (pc tag children)
    | "b" =>
      if !opts.ignoreEmphasis then "**" ++ strTrim (pc tag children) ++ "**"
      else strTrim (pc tag children)
    | "em" =>
      if !opts.ignoreEmphasis then "_" ++ strTrim (pc tag children) ++ "_"
      else strTrim (pc tag children)
    | "i" =>
      if !opts.ignoreEmphasis then "_" ++ strTrim (pc tag children) ++ "_"
      else strTrim (pc tag children)
    | "table" => aProcTable pc el ++ "\n\n"
    | "sup" =>
      if opts.includeSuperSub then "^" ++ strTrim el.textContent ++ "^"
      else strTrim el.textContent
    | "sub" =>
      if opts.includeSuperSub then "~" ++ strTrim el.textContent ++ "~"
      else strTrim el.textContent
    | _ => pc tag children
  | _ + 1, _, _ => ""

/-- `domToMarkdown` of the synchronous variant (same dispatch; its
`processChildren` trims, and its `processTable` differs). -/
def sDom (opts : H2TOptions) (o : UrlOracle) (baseUrl : String) :
    Nat → String → Dom → String
  | 0, _, _ => ""
  | fuel + 1, parentTag, .elem tag attrs children =>
    let el := Dom.elem tag attrs children
    let render := fun (ptag : String) (e : Dom) => sDom opts o baseUrl fuel ptag e
    let pc := sProcChildren render
    match tag with
    | "h1" => "\n# " ++ strTrim el.textContent ++ "\n\n"
    | "h2" => "\n## " ++ strTrim el.textContent ++ "\n\n"
    | "h3" => "\n### " ++ strTrim el.textContent ++ "\n\n"
    | "h4" => "\n#### " ++ strTrim el.textContent ++ "\n\n"
    | "h5" => "\n##### " ++ strTrim el.textContent ++ "\n\n"
    | "h6" => "\n###### " ++ strTrim el.textContent ++ "\n\n"
    | "p" => strTrim (pc tag children) ++ "\n\n"
    | "br" => "\n"
    | "hr" => "\n---\n\n"
    | "ul" => jsProcList pc "*" el ++ "\n"
    | "ol" => jsProcList pc "1." el ++ "\n"
    | "li" => "* " ++ strTrim (pc tag children) ++ "\n"
    | "blockquote" => jsProcBlockquote pc el ++ "\n"
    | "pre" =>
      let codeElement := (Dom.queryTag "code" el).head?
      let codeContent :=
        match codeElement with
        | some c => c.textContent
        | none => el.textContent
      let lang :=
        match codeElement with
        | some c => (langSearch (Dom.className c).data).getD ""
        | none => ""
      "\n```" ++ lang ++ "\n" ++ strTrim codeContent ++ "\n```\n\n"
    | "code" =>
      if parentTag == "pre" then strTrim el.textContent
      else "`" ++ strTrim el.textContent ++ "`"
    | "a" =>
      if opts.ignoreLinks then strTrim el.textContent
      else
        let href := (el.getAttr "href").getD ""
        let text := strTrim el.textContent
        if opts.skipInternalLinks && (strStarts href "#" || href == "") then text
        else
          let url := resolveUrlH2T o baseUrl href
          if text ≠ "" then "[" ++ text ++ "](" ++ url ++ titleSuffix el ++ ")"
          else "<" ++ url ++ ">"
    | "img" =>
      if !opts.ignoreImages then
        "![" ++ (el.getAttr "alt").getD "" ++ "](" ++
          resolveUrlH2T o baseUrl ((el.getAttr "src").getD "") ++ titleSuffix el ++ ")"
      else ""
    | "strong" =>
      if !opts.ignoreEmphasis then "**" ++ strTrim (pc tag children) ++ "**"
      else strTrim (pc tag children)
    | "b" =>
      if !opts.ignoreEmphasis then "**" ++ strTrim (pc tag children) ++ "**"
      else strTrim (pc tag children)
    | "em" =>
      if !opts.ignoreEmphasis then "_" ++ strTrim (pc tag children) ++ "_"
      else strTrim (pc tag children)
    | "i" =>
      if !opts.ignoreEmphasis then "_" ++ strTrim (pc tag children) ++ "_"
      else strTrim (pc tag children)
    | "table" => sProcTable el ++ "\n\n"
    | "sup" =>
      if opts.includeSuperSub then "^" ++ strTrim el.textContent ++ "^"
      else strTrim el.textContent
    | "sub" =>
      if opts.includeSuperSub then "~" ++ strTrim el.textContent ++ "~"
      else strTrim el.textContent
    | _ => pc tag children
  | _ + 1, _, _ => ""

/-- `CustomHtml2Text.handle` of the async variant, after the external
parse: clean the document, then render the body (whose parent element is
`html`). -/
def handleAsync (opts : H2TOptions) (o : UrlOracle) (baseUrl : String) (body : Dom) : String :=
  aDom opts o baseUrl (Dom.size body + 1) "html" (cleanDocDom body)

/-- `handle` of the synchronous variant. -/
def handleSync (opts : H2TOptions) (o : UrlOracle) (baseUrl : String) (body : Dom) : String :=
  sDom opts o baseUrl (Dom.size body + 1) "html" (cleanDocDom body)

/-- The explicitly dispatched non-table tags, on which the two variants'
`domToMarkdown` arms are textually identical up to `processChildren`. -/
def handledTags : List String :=
  ["h1", "h2", "h3", "h4", "h5", "h6", "p", "br", "hr", "ul", "ol", "li",
   "blockquote", "pre", "code", "a", "img", "strong", "b", "em", "i", "sup", "sub"]

mutual

/-- Every element in this tree (root included) has an explicitly
dispatched non-table tag. -/
def goodDom : Dom → Bool
  | .elem t _ cs => handledTags.contains t && goodList cs
  | _ => true

def goodList : List Dom → Bool
  | [] => true
  | d :: ds => goodDom d && goodList ds

end

/-- The header/data table of the C6 example: header cells A and B, one
data row with cells 1 and 2. -/
def tableAB : Dom :=
  .elem "table" []
    [.elem "tr" [] [.elem "th" [] [.text "A"], .elem "th" [] [.text "B"]],
     .elem "tr" [] [.elem "td" [] [.text "1"], .elem "td" [] [.text "2"]]]

/-! ## Supporting lemmas -/

theorem Dom.size_pos (d : Dom) : 1 ≤ d.size := by
  cases d <;> simp [Dom.size]

theorem Dom.sizeList_cons (d : Dom) (ds : List Dom) :
    Dom.sizeList (d :: ds) = d.size + Dom.sizeList ds := rfl

theorem Dom.sizeList_eq_zero {ds : List Dom} (h : Dom.sizeList ds = 0) : ds = [] := by
  cases ds with
  | nil => rfl
  | cons d ds =>
    have := Dom.size_pos d
    rw [Dom.sizeList_cons] at h
    omega

/-- Unfolding lemma: `removeUnwantedF` on a cons, text head. -/
theorem removeUnwantedF_cons_text (fuel : Nat) (s : String) (ds : List Dom) :
    removeUnwantedF (fuel + 1) (.text s :: ds) = .text s :: removeUnwantedF (fuel + 1) ds := by
  simp [removeUnwantedF, List.filterMap_cons]

/-- Unfolding lemma: `removeUnwantedF` on a cons, comment head. -/
theorem removeUnwantedF_cons_comment (fuel : Nat) (s : String) (ds : List Dom) :
    removeUnwantedF (fuel + 1) (.comment s :: ds) = .comment s :: removeUnwantedF (fuel + 1) ds := by
  simp [removeUnwantedF, List.filterMap_cons]

/-- Unfolding lemma: `removeUnwantedF` drops an excluded element. -/
theorem removeUnwantedF_cons_drop (fuel : Nat) (t : String) (a : List (String × String))
    (cs ds : List Dom) (h : t ∈ excludedTags) :
    removeUnwantedF (fuel + 1) (.elem t a cs :: ds) = removeUnwantedF (fuel + 1) ds := by
  simp [removeUnwantedF, List.filterMap_cons, h]

/-- Unfolding lemma: `removeUnwantedF` keeps a non-excluded element and
recurses into its children. -/
theorem removeUnwantedF_cons_keep (fuel : Nat) (t : String) (a : List (String × String))
    (cs ds : List Dom) (h : ¬ t ∈ excludedTags) :
    removeUnwantedF (fuel + 1) (.elem t a cs :: ds) =
      .elem t a (removeUnwantedF fuel cs) :: removeUnwantedF (fuel + 1) ds := by
  simp [removeUnwantedF, List.filterMap_cons, h]

/-- With sufficient fuel, every element surviving `removeUnwantedF` (at any
depth) has a non-excluded tag. -/
theorem removeUnwantedF_noExcluded :
    ∀ (fuel : Nat) (ds : List Dom), Dom.sizeList ds ≤ fuel →
      noExcludedList (removeUnwantedF fuel ds) = true := by
  intro fuel
  induction fuel with
  | zero =>
    intro ds h
    rw [Dom.sizeList_eq_zero (Nat.le_zero.mp h)]
    rfl
  | succ fuel ih =>
    intro ds h
    induction ds with
    | nil => rfl
    | cons d ds ihds =>
      rw [Dom.sizeList_cons] at h
      have hds : noExcludedList (removeUnwantedF (fuel + 1) ds) = true :=
        ihds (by have := Dom.size_pos d; omega)
      cases d with
      | text s =>
        rw [removeUnwantedF_cons_text]
        simpa [noExcludedList, noExcludedDom] using hds
      | comment s =>
        rw [removeUnwantedF_cons_comment]
        simpa [noExcludedList, noExcludedDom] using hds
      | elem t a cs =>
        have hcs : Dom.sizeList cs ≤ fuel := by
          simp [Dom.size] at h
          omega
        by_cases hex : t ∈ excludedTags
        · rw [removeUnwantedF_cons_drop fuel t a cs ds hex]
          exact hds
        · rw [removeUnwantedF_cons_keep fuel t a cs ds hex]
          simp only [noExcludedList, noExcludedDom, Bool.and_eq_true]
          refine ⟨⟨?_, ih cs hcs⟩, hds⟩
          simpa using hex

/-- A forest with no excluded element anywhere is left unchanged by
`removeUnwantedF`, at every fuel. -/
theorem removeUnwantedF_id :
    ∀ (fuel : Nat) (ds : List Dom), noExcludedList ds = true →
      removeUnwantedF fuel ds = ds := by
  intro fuel
  induction fuel with
  | zero => intro ds _; rfl
  | succ fuel ih =>
    intro ds h
    induction ds with
    | nil => rfl
    | cons d ds ihds =>
      simp only [noExcludedList, Bool.and_eq_true] at h
      have hds : removeUnwantedF (fuel + 1) ds = ds := ihds h.2
      cases d with
      | text s => rw [removeUnwantedF_cons_text, hds]
      | comment s => rw [removeUnwantedF_cons_comment, hds]
      | elem t a cs =>
        have h1 := h.1
        simp only [noExcludedDom, Bool.and_eq_true, Bool.not_eq_true'] at h1
        have hex : ¬ t ∈ excludedTags := by
          intro hmem
          have := h1.1
          simp [hmem] at this
        rw [removeUnwantedF_cons_keep fuel t a cs ds hex, ih cs h1.2, hds]

theorem sublist_sum_le {l1 l2 : List Nat} (h : l1.Sublist l2) : l1.sum ≤ l2.sum := by
  induction h with
  | slnil => exact le_refl _
  | cons a h ih => simp only [List.sum_cons]; omega
  | cons₂ a h ih => simp only [List.sum_cons]; omega

theorem serList_cons (d : Dom) (ds : List Dom) :
    Dom.serList (d :: ds) = d.outerHTML ++ Dom.serList ds := rfl

/-- The length of a serialized forest is the sum of the serialized lengths
of its trees. -/
theorem serList_length (cs : List Dom) :
    (Dom.serList cs).length = (cs.map (fun d => d.outerHTML.length)).sum := by
  induction cs with
  | nil => rfl
  | cons d ds ih => simp [serList_cons, String.length_append, ih]

/-- The serialized length of an element splits into its markup plus its
serialized children. -/
theorem outerHTML_elem_length (t : String) (a : List (String × String)) (cs : List Dom) :
    (Dom.outerHTML (.elem t a cs)).length =
      ("<" ++ t ++ serAttrs a ++ ">").length + (Dom.serList cs).length
        + ("</" ++ t ++ ">").length := by
  simp [Dom.outerHTML, String.length_append]
  omega

/-- Dropping or shrinking trees of a forest never lengthens its
serialization. -/
theorem serList_filterMap_length_le (f : Dom → Option Dom)
    (hf : ∀ c c', f c = some c' → c'.outerHTML.length ≤ c.outerHTML.length) :
    ∀ cs : List Dom, (Dom.serList (cs.filterMap f)).length ≤ (Dom.serList cs).length := by
  intro cs
  induction cs with
  | nil => exact le_refl _
  | cons c cs ih =>
    rw [List.filterMap_cons]
    cases hc : f c with
    | none =>
      calc (Dom.serList (cs.filterMap f)).length ≤ (Dom.serList cs).length := ih
        _ ≤ (Dom.serList (c :: cs)).length := by
            simp [serList_cons, String.length_append]
    | some c' =>
      have := hf c c' hc
      simp only [serList_cons, String.length_append]
      omega

/-- Pruning a node only shrinks its serialization (outer and inner). -/
theorem pruneNodeF_shrink :
    ∀ (fuel : Nat) (cfg : FilterCfg) (canRemove : Bool) (d d' : Dom),
      pruneNodeF cfg canRemove fuel d = some d' →
      d'.outerHTML.length ≤ d.outerHTML.length ∧
      d'.innerHTML.length ≤ d.innerHTML.length := by
  intro fuel
  induction fuel with
  | zero =>
    intro cfg canRemove d d' h
    simp only [pruneNodeF, Option.some.injEq] at h
    rw [← h]
    exact ⟨le_refl _, le_refl _⟩
  | succ fuel ih =>
    intro cfg canRemove d d' h
    cases d with
    | text s =>
      simp only [pruneNodeF, Option.some.injEq] at h
      rw [← h]; exact ⟨le_refl _, le_refl _⟩
    | comment s =>
      simp only [pruneNodeF, Option.some.injEq] at h
      rw [← h]; exact ⟨le_refl _, le_refl _⟩
    | elem t a cs =>
      have hshrink :
          (Dom.serList (cs.filterMap (fun c =>
            match c with
            | .elem _ _ _ => pruneNodeF cfg true fuel c
            | _ => some c))).length ≤ (Dom.serList cs).length := by
        refine serList_filterMap_length_le _ ?_ cs
        intro c c' hc
        cases c with
        | text s => simp only [Option.some.injEq] at hc; rw [← hc]
        | comment s => simp only [Option.some.injEq] at hc; rw [← hc]
        | elem t2 a2 cs2 => exact (ih cfg true _ c' hc).1
      simp only [pruneNodeF] at h
      split at h
      · exact absurd h (by simp)
      · split at h
        · exact absurd h (by simp)
        · simp only [Option.some.injEq] at h
          rw [← h]
          constructor
          · rw [outerHTML_elem_length, outerHTML_elem_length]
            omega
          · simpa [Dom.innerHTML] using hshrink

/-- `removeCommentsF` only shrinks the serialization. -/
theorem removeCommentsF_shrink :
    ∀ (fuel : Nat) (cs : List Dom),
      (Dom.serList (removeCommentsF fuel cs)).length ≤ (Dom.serList cs).length := by
  intro fuel
  induction fuel with
  | zero => intro cs; exact le_refl _
  | succ fuel ih =>
    intro cs
    show (Dom.serList (cs.filterMap _)).length ≤ _
    refine serList_filterMap_length_le _ ?_ cs
    intro c c' hc
    cases c with
    | text s => simp only [Option.some.injEq] at hc; rw [← hc]
    | comment s => simp at hc
    | elem t a cs2 =>
      simp only [Option.some.injEq] at hc
      rw [← hc, outerHTML_elem_length, outerHTML_elem_length]
      have := ih cs2
      omega

/-- `removeUnwantedF` only shrinks the serialization. -/
theorem removeUnwantedF_shrink :
    ∀ (fuel : Nat) (cs : List Dom),
      (Dom.serList (removeUnwantedF fuel cs)).length ≤ (Dom.serList cs).length := by
  intro fuel
  induction fuel with
  | zero => intro cs; exact le_refl _
  | succ fuel ih =>
    intro cs
    show (Dom.serList (cs.filterMap _)).length ≤ _
    refine serList_filterMap_length_le _ ?_ cs
    intro c c' hc
    cases c with
    | text s => simp only [Option.some.injEq] at hc; rw [← hc]
    | comment s => simp only [Option.some.injEq] at hc; rw [← hc]
    | elem t a cs2 =>
      simp only at hc
      split at hc
      · simp at hc
      · simp only [Option.some.injEq] at hc
        rw [← hc, outerHTML_elem_length, outerHTML_elem_length]
        have := ih cs2
        omega

/-- The collected fragments never exceed the body's inner serialization. -/
theorem collectFragments_length_le (b : Dom) :
    ((collectFragments b).map String.length).sum ≤ b.innerHTML.length := by
  cases b with
  | text s => simp [collectFragments, Dom.elemChildren, Dom.innerHTML]
  | comment s => simp [collectFragments, Dom.elemChildren, Dom.innerHTML]
  | elem t a cs =>
    have hsub : ((cs.filter Dom.isElem).filter
        (fun c => (strTrim c.textContent).length > 0)).Sublist cs :=
      ((List.filter_sublist _).trans (List.filter_sublist _))
    have hmap := hsub.map (fun d => d.outerHTML.length)
    have hsum := sublist_sum_le hmap
    calc ((collectFragments (Dom.elem t a cs)).map String.length).sum
        = (((cs.filter Dom.isElem).filter
            (fun c => (strTrim c.textContent).length > 0)).map
              (fun d => d.outerHTML.length)).sum := by
          simp [collectFragments, Dom.elemChildren, List.map_map]
          rfl
      _ ≤ (cs.map (fun d => d.outerHTML.length)).sum := hsum
      _ = (Dom.innerHTML (Dom.elem t a cs)).length := by
          simp [Dom.innerHTML, serList_length]

/-- The captured body reference only shrinks (inner serialization) under
`pruneTree`, whichever removal site fired. -/
theorem pruneBody_innerHTML_le (cfg : FilterCfg) (b : Dom) :
    (pruneBody cfg b).innerHTML.length ≤ b.innerHTML.length := by
  cases b with
  | text s => exact le_refl _
  | comment s => exact le_refl _
  | elem t a cs =>
    simp only [pruneBody]
    split
    · exact le_refl _
    · simp only [Dom.innerHTML]
      refine serList_filterMap_length_le _ ?_ cs
      intro c c' hc
      cases c with
      | text s => simp only [Option.some.injEq] at hc; rw [← hc]
      | comment s => simp only [Option.some.injEq] at hc; rw [← hc]
      | elem t2 a2 cs2 => exact (pruneNodeF_shrink _ cfg true _ c' hc).1

/-- The inner serialization only shrinks along the comment- and
excluded-tag-removal stages. -/
theorem prep_innerHTML_le (body : Dom) :
    (removeUnwanted (removeCommentsDom body)).innerHTML.length ≤ body.innerHTML.length := by
  cases body with
  | text s => simp [removeCommentsDom, removeUnwanted]
  | comment s => simp [removeCommentsDom, removeUnwanted]
  | elem t a cs =>
    simp only [removeCommentsDom, removeUnwanted]
    have h1 := removeCommentsF_shrink (Dom.size (Dom.elem t a cs)) cs
    have h2 := removeUnwantedF_shrink
      (Dom.size (Dom.elem t a (removeCommentsF (Dom.size (Dom.elem t a cs)) cs)))
      (removeCommentsF (Dom.size (Dom.elem t a cs)) cs)
    simp only [Dom.innerHTML]
    omega

/-! ## Claim C3: the excluded-tag removal stage -/

/-- C3, counterexample: the claim says an element whose class/id contains a
content-indicating token is preserved by the excluded-tag removal stage;
but `removeUnwantedTags` consults only the tag.  In `navContentDoc` the
element `<nav class="content">` is present before the stage and gone after
it. -/
theorem claim_C3_counterexample :
    ((Dom.descElemsList [navContentDoc]).any (fun e => e.className == "content")) = true ∧
    ((Dom.descElemsList [removeUnwanted navContentDoc]).any
      (fun e => e.className == "content")) = false := by
  decide

/-- C3, amended: the removal stage removes exactly the subtrees rooted at
elements whose tag is in the excluded set; class/id and content tokens
play no role.  (i) After the stage no element below the document root has
an excluded tag; (ii) a document containing no excluded element — in
particular one built of `main`/`article`/`section` containers — passes
through unchanged. -/
theorem claim_C3_amended :
    (∀ t a cs, noExcludedList (Dom.childrenOf (removeUnwanted (Dom.elem t a cs))) = true) ∧
    (∀ d, noExcludedDom d = true → removeUnwanted d = d) := by
  constructor
  · intro t a cs
    have h : Dom.sizeList cs ≤ Dom.size (Dom.elem t a cs) := by
      simp [Dom.size]
    simpa [removeUnwanted, Dom.childrenOf] using
      removeUnwantedF_noExcluded (Dom.size (Dom.elem t a cs)) cs h
  · intro d h
    cases d with
    | text s => rfl
    | comment s => rfl
    | elem t a cs =>
      simp only [noExcludedDom, Bool.and_eq_true] at h
      simp [removeUnwanted, removeUnwantedF_id _ cs h.2]

/-- C3, witness for the amended claim at concrete inputs. -/
theorem claim_C3_witness :
    noExcludedList
      (Dom.childrenOf (removeUnwanted
        (Dom.elem "body" [] [.elem "article" [] [.text "A"]]))) = true ∧
    removeUnwanted (Dom.elem "article" [] [.text "hi"]) =
      Dom.elem "article" [] [.text "hi"] :=
  ⟨claim_C3_amended.1 "body" [] [.elem "article" [] [.text "A"]],
   claim_C3_amended.2 _ (by decide)⟩

/-! ## Claim C2: the body node and the pruning pass -/

/-- C2, counterexample: on the parse of `<div></div>` with the default
filter configuration, the pruning pass detaches the body element itself
(its composite score 0.1 is below the fixed threshold 0.48, and the
guard only protects nodes whose parent is the document node, whereas the
body's parent is the `html` element). -/
theorem claim_C2_counterexample :
    (pruneTree defaultFilterCfg true (removeUnwanted (removeCommentsDom emptyDivBody))).isNone
      = true := by
  decide

/-- C2, amended: the guard `node.parentNode !== node.ownerDocument` only
prevents removal of a node whose parent is the document itself (i), so
the body can be removed by its initial score check; when that check
fires, `pruneTree` returns before touching the children, so the output
fragments are still collected from the captured body reference's
unpruned children (ii). -/
theorem claim_C2_amended :
    (∀ cfg fuel d, (pruneNodeF cfg false fuel d).isSome = true) ∧
    (∀ cfg body,
      shouldRemoveNode cfg (removeUnwanted (removeCommentsDom body)) = true →
      bodyFragments cfg body = collectFragments (removeUnwanted (removeCommentsDom body))) := by
  constructor
  · intro cfg fuel d
    cases fuel with
    | zero => cases d <;> simp [pruneNodeF]
    | succ fuel => cases d <;> simp [pruneNodeF]
  · intro cfg body h
    unfold bodyFragments
    cases hb : removeUnwanted (removeCommentsDom body) with
    | text s => rfl
    | comment s => rfl
    | elem t a cs =>
      rw [hb] at h
      simp [pruneBody, h]

/-- C2, witness for the amended claim at concrete inputs. -/
theorem claim_C2_witness :
    (pruneNodeF defaultFilterCfg false 3 (.elem "div" [] [])).isSome = true ∧
    bodyFragments defaultFilterCfg emptyDivBody =
      collectFragments (removeUnwanted (removeCommentsDom emptyDivBody)) :=
  ⟨claim_C2_amended.1 defaultFilterCfg 3 _,
   claim_C2_amended.2 defaultFilterCfg emptyDivBody (by decide)⟩

/-! ## Claim C10: the processor keeps its HTML when filtering empties it -/

/-- C10: `HtmlProcessor.filter` assigns
`this.currentHtml = filteredContent || this.currentHtml`; an empty filter
result (every element pruned) leaves the current HTML unchanged, and the
current HTML becomes the filtered output exactly when that output is
non-empty. -/
theorem claim_C10 (parse : String → Dom) (cfg : FilterCfg) (current : String)
    (_hcur : current ≠ "") :
    (filterContentAsString parse cfg current = "" →
      processorFilterStep parse cfg current = current) ∧
    (filterContentAsString parse cfg current ≠ "" →
      processorFilterStep parse cfg current = filterContentAsString parse cfg current) := by
  unfold processorFilterStep
  constructor <;> intro h <;> simp [h]

/-- C10, witness: on `<div></div>` everything is pruned, the filtered
string is empty, and the processor keeps its current HTML. -/
theorem claim_C10_witness :
    processorFilterStep pruneAllParse defaultFilterCfg "<div></div>" = "<div></div>" :=
  (claim_C10 pruneAllParse defaultFilterCfg "<div></div>" (by decide)).1 (by decide)

/-! ## Claim C5: total fragment length vs. input length -/

/-- C5, counterexample: the claim bounds the total fragment length by the
input string's length, but the external parser normalizes HTML.  On the
five-character input `<p>xx` an HTML5 parser completes the unclosed tag,
and the single surviving fragment `<p>xx</p>` alone is nine characters. -/
theorem claim_C5_counterexample :
    ¬ (((filterContent parseHtml5P defaultFilterCfg "<p>xx").map String.length).sum ≤
        "<p>xx".length) := by
  decide

/-- C5, amended: pruning only removes, so the bound holds against the
parsed body's serialization: whenever the parse does not lengthen the
input (inner serialization of the parsed body ≤ input length), the total
length of the filtered fragments is at most the input length. -/
theorem claim_C5_amended (parse : String → Dom) (cfg : FilterCfg) (html : String)
    (h : (parse html).innerHTML.length ≤ html.length) :
    ((filterContent parse cfg html).map String.length).sum ≤ html.length := by
  by_cases hempty : html = ""
  · simp [filterContent, hempty]
  · rw [filterContent, if_neg hempty]
    rw [bodyFragments]
    have hprep := prep_innerHTML_le (parse html)
    have hpb := pruneBody_innerHTML_le cfg
      (removeUnwanted (removeCommentsDom (parse html)))
    have := collectFragments_length_le
      (pruneBody cfg (removeUnwanted (removeCommentsDom (parse html))))
    omega

/-- C5, witness for the amended claim: a round-tripping parse of
`<p>Hello world</p>`. -/
theorem claim_C5_witness :
    ((filterContent helloParse defaultFilterCfg "<p>Hello world</p>").map String.length).sum ≤
      "<p>Hello world</p>".length :=
  claim_C5_amended helloParse defaultFilterCfg "<p>Hello world</p>" (by decide)

/-! ## Claim C1: the composite score -/

/-- Every entry of `tagWeights`, and the default, has denominator 10. -/
theorem lookupFr_tagWeights_den (t : String) :
    (lookupFr tagWeights t ⟨5, 10⟩).den = 10 := by
  unfold lookupFr
  cases h : tagWeights.find? (fun p => p.1 == t) with
  | none => rfl
  | some p =>
    have hmem := List.mem_of_find?_eq_some h
    have hall : tagWeights.all (fun p => p.2.den == 10) = true := by decide
    rw [List.all_eq_true] at hall
    have := hall p hmem
    simpa using this

/-- `computeClassIdWeight` takes one of two concrete values. -/
theorem computeClassIdWeight_cases (node : Dom) :
    computeClassIdWeight node = ⟨-5, 10⟩ ∨ computeClassIdWeight node = ⟨0, 1⟩ := by
  unfold computeClassIdWeight
  by_cases h : negMatch (strLower (node.className ++ " " ++ node.idAttr)) = true
  · left
    simp only [h, if_true]
    rfl
  · right
    simp only [h, if_false]
    rfl

/-- C1, counterexample: at an attribute-free `div` with
`textLen = tagLen = 100` and no link text, the code's composite score is
0.6 while the claimed weighted sum evaluates to 0.575. -/
theorem claim_C1_counterexample :
    (computeCompositeScore divNode 100 100 0).toRat ≠ specCompositeScore divNode 100 100 0 := by
  have hc : computeCompositeScore divNode 100 100 0 =
      ⟨600000000000000, 1000000000000000⟩ := by decide
  have hw : lookupFr tagWeights (Dom.tag divNode) ⟨5, 10⟩ = ⟨5, 10⟩ := by decide
  have hci : computeClassIdWeight divNode = ⟨0, 1⟩ := by decide
  rw [hc]
  unfold specCompositeScore
  rw [hw, hci]
  norm_num [Frac.toRat]

/-- `Frac.blt ⟨textLen, 100⟩ 1` is exactly `textLen < 100`. -/
theorem blt_len_true {tl : Nat} (h : tl < 100) :
    Frac.blt ⟨(tl : Int), 100⟩ Frac.one = true := by
  simp [Frac.blt, Frac.one]
  omega

theorem blt_len_false {tl : Nat} (h : ¬ tl < 100) :
    Frac.blt ⟨(tl : Int), 100⟩ Frac.one = false := by
  simp [Frac.blt, Frac.one]
  omega

theorem min_len_lt {tl : Nat} (h : tl < 100) :
    min (1 : ℚ) ((tl : ℚ) / 100) = (tl : ℚ) / 100 := by
  rw [min_eq_right]
  rw [div_le_one (by norm_num)]
  exact_mod_cast h.le

theorem min_len_ge {tl : Nat} (h : ¬ tl < 100) :
    min (1 : ℚ) ((tl : ℚ) / 100) = 1 := by
  rw [min_eq_left]
  rw [one_le_div (by norm_num)]
  exact_mod_cast Nat.le_of_not_lt h

/-- C1, amended: the composite score is the weighted sum
density×0.4 + tagWeight×0.2 + classIdPenalty×0.1 − linkDensity×0.2 +
lengthScore×0.1, divided by the total applied weight 1.0, with density,
link density, class/id penalty and length score exactly as the claim
describes them. -/
theorem claim_C1_amended (node : Dom) (textLen tagLen linkTextLen : Nat) :
    (computeCompositeScore node textLen tagLen linkTextLen).toRat =
      codeCompositeFormula node textLen tagLen linkTextLen := by
  have hw := lookupFr_tagWeights_den node.tag
  rcases computeClassIdWeight_cases node with hci | hci <;>
  · unfold computeCompositeScore codeCompositeFormula
    rw [hci]
    by_cases hg : tagLen > 0 <;> by_cases ht : textLen > 0 <;> by_cases hl : textLen < 100
    all_goals
      first
        | rw [blt_len_true hl, min_len_lt hl]
        | rw [blt_len_false hl, min_len_ge hl]
    all_goals
      simp [hg, ht, Frac.add, Frac.sub, Frac.mul, Frac.divF, Frac.zero, Frac.one,
        Frac.blt, Frac.toRat, hw]
    all_goals
      try have hgq : ((tagLen : ℚ)) ≠ 0 := Nat.cast_ne_zero.mpr (by omega)
    all_goals
      try have htq : ((textLen : ℚ)) ≠ 0 := Nat.cast_ne_zero.mpr (by omega)
    all_goals
      field_simp
      ring

/-! ## Claim C8: URL resolution pass-through and failure behavior -/

/-- C8, counterexample: when the base URL cannot be parsed (the host URL
constructor throws) and the candidate is root-relative, `fastUrlJoin`
falls back to concatenation rather than returning the candidate
unchanged: joining `/x` onto the unparsable base `base` yields `base/x`. -/
theorem claim_C8_counterexample : fastUrlJoin failOracle "base" "/x" ≠ "/x" := by
  decide

/-- C8, amended: (i) an already-absolute candidate (http, https, mailto,
data) or a protocol-relative one (`//`) passes through unchanged; (ii) a
failed standard relative resolution returns the candidate unchanged;
(iii) but a root-relative candidate with a non-empty base that fails to
parse returns the concatenation of base (trailing slash stripped) and
candidate instead of the candidate. -/
theorem claim_C8_amended :
    (∀ (o : UrlOracle) (baseUrl url : String),
      (strStarts url "http://" || strStarts url "https://" || strStarts url "mailto:" ||
        strStarts url "//" || strStarts url "data:") = true →
      fastUrlJoin o baseUrl url = url) ∧
    (∀ (o : UrlOracle) (baseUrl url : String),
      (strStarts url "http://" || strStarts url "https://" || strStarts url "mailto:" ||
        strStarts url "//" || strStarts url "data:") = false →
      strStarts url "/" = false →
      o.resolveRel url baseUrl = none →
      fastUrlJoin o baseUrl url = url) ∧
    (∀ (o : UrlOracle) (baseUrl url : String),
      (strStarts url "http://" || strStarts url "https://" || strStarts url "mailto:" ||
        strStarts url "//" || strStarts url "data:") = false →
      strStarts url "/" = true →
      baseUrl ≠ "" →
      o.parseBase baseUrl = none →
      fastUrlJoin o baseUrl url =
        (if strEnds baseUrl "/" then strDropLast baseUrl ++ url else baseUrl ++ url)) := by
  refine ⟨?_, ?_, ?_⟩
  · intro o baseUrl url habs
    simp [fastUrlJoin, habs]
  · intro o baseUrl url habs hroot hfail
    by_cases hb : baseUrl = ""
    · simp [fastUrlJoin, habs, hroot, hb]
    · simp [fastUrlJoin, habs, hroot, hb, hfail]
  · intro o baseUrl url habs hroot hb hfail
    simp [fastUrlJoin, habs, hroot, hb, hfail]

/-- C8, witness for the amended claim at concrete inputs. -/
theorem claim_C8_witness :
    fastUrlJoin failOracle "x" "https://e.com/p" = "https://e.com/p" ∧
    fastUrlJoin failOracle "base" "rel" = "rel" ∧
    fastUrlJoin failOracle "base/" "/x" =
      (if strEnds "base/" "/" then strDropLast "base/" ++ "/x" else "base/" ++ "/x") :=
  ⟨claim_C8_amended.1 failOracle "x" "https://e.com/p" (by decide),
   claim_C8_amended.2.1 failOracle "base" "rel" (by decide) (by decide) rfl,
   claim_C8_amended.2.2 failOracle "base/" "/x" (by decide) (by decide) (by decide) rfl⟩

/-! ## Claim C7: empty-text spans in the citation rewriter -/

/-- A successful bracket match always captures non-empty text
(`[^\]]+` requires at least one character). -/
theorem matchBracket_text_ne (b : Bool) (cs : List Char) (sp : Span) (rest : List Char)
    (h : matchBracket b cs = some (sp, rest)) : sp.text ≠ "" := by
  unfold matchBracket at h
  by_cases he : (cs.takeWhile (fun c => !(c == ']'))).isEmpty = true
  · simp [he] at h
  · simp only [he, if_false, Bool.false_eq_true, ite_false] at h
    split at h
    · split at h
      · simp only [Option.some.injEq, Prod.mk.injEq] at h
        intro hcon
        rw [← h.1] at hcon
        have htw : cs.takeWhile (fun c => !(c == ']')) = [] := congrArg String.data hcon
        rw [htw] at he
        simp at he
      · exact absurd h (by simp)
    · exact absurd h (by simp)

/-- Every span produced by the scanner has non-empty text. -/
theorem scanAux_text_ne :
    ∀ (fuel : Nat) (gap cs : List Char) (p : String × Span),
      p ∈ (scanAux fuel gap cs).1 → p.2.text ≠ "" := by
  intro fuel
  induction fuel with
  | zero => intro gap cs p hp; simp [scanAux] at hp
  | succ fuel ih =>
    intro gap cs p hp
    cases cs with
    | nil => simp [scanAux] at hp
    | cons c cs =>
      rw [scanAux] at hp
      cases hm : matchSpanAt (c :: cs) with
      | none =>
        rw [hm] at hp
        exact ih _ _ p hp
      | some sr =>
        rw [hm] at hp
        simp only [List.mem_cons] at hp
        cases hp with
        | inl heq =>
          have htext : sr.1.text ≠ "" := by
            rcases sr with ⟨sp1, rest1⟩
            cases c with
            | _ =>
              unfold matchSpanAt at hm
              first
                | exact matchBracket_text_ne _ _ _ _ hm
                | (split at hm
                   · exact matchBracket_text_ne _ _ _ _ hm
                   · exact matchBracket_text_ne _ _ _ _ hm
                   · exact absurd hm (by simp))
          rw [heq]
          exact htext
        | inr hmem => exact ih _ _ p hmem

/-- C7, counterexample: a span with literally empty text is not matched at
all — `LINK_PATTERN`'s text group is `[^\]]+` — so `[](http://x)` is left
unchanged, no id is assigned, and the references block is empty. -/
theorem claim_C7_counterexample :
    convertLinksToRefs failOracle "[](http://x)" "" = ("[](http://x)", "") ∧
    refEntries failOracle "[](http://x)" "" = [] := by
  constructor <;> decide

/-- C7, amended: the regex only matches spans whose text has at least one
character, so a span with empty text is never matched (i); for a matched
span whose text is non-empty but trims to empty (whitespace-only), the
rewriter substitutes the resolved URL as the display text of the
replacement (ii). -/
theorem claim_C7_amended (markdown : String) :
    (∀ p ∈ (scanSpans markdown).1, p.2.text ≠ "") ∧
    (∀ (o : UrlOracle) (baseUrl : String) (st : CvtState) (gap : String) (sp : Span),
      strTrim sp.text = "" →
      ∃ n, (processSpan o baseUrl st gap sp).parts =
        st.parts ++ [gap, spanReplacement sp.isImage (resolveSpanUrl o baseUrl sp.url) n]) := by
  constructor
  · intro p hp
    exact scanAux_text_ne _ _ _ p hp
  · intro o baseUrl st gap sp htrim
    refine ⟨lookupRefNum
      (if (st.linkMap.find? (fun p => p.1 == resolveSpanUrl o baseUrl sp.url)).isSome
       then st.linkMap
       else st.linkMap ++ [(resolveSpanUrl o baseUrl sp.url,
         ⟨st.counter, spanDescription sp.text sp.title⟩)])
      (resolveSpanUrl o baseUrl sp.url), ?_⟩
    simp only [processSpan, htrim, if_true, ite_true]

/-- C7, witness: the whitespace-text span `[ ](http://x)` is matched and
rewritten with the URL as display text. -/
theorem claim_C7_witness :
    ("[ ](http://x)" : String).data ≠ [] ∧
    ∃ n, (processSpan failOracle "" ⟨[], [], 1, []⟩ "" ⟨false, " ", "http://x", none⟩).parts =
      [] ++ ["", spanReplacement false (resolveSpanUrl failOracle "" "http://x") n] :=
  ⟨by decide,
   (claim_C7_amended "[ ](http://x)").2 failOracle "" ⟨[], [], 1, []⟩ ""
     ⟨false, " ", "http://x", none⟩ (by decide)⟩

/-! ## Claim C4: reference id assignment -/

theorem strBeq_comm (a b : String) : (a == b) = (b == a) := by
  by_cases h : a = b
  · subst h; rfl
  · rw [beq_eq_false_iff_ne.mpr h, beq_eq_false_iff_ne.mpr (Ne.symm h)]

/-- A key is findable in the link map exactly when the key list contains
it. -/
theorem contains_keys_iff (m : List (String × RefInfo)) (k : String) :
    (m.map (fun p => p.1)).contains k = (m.find? (fun p => p.1 == k)).isSome := by
  induction m with
  | nil => rfl
  | cons p m ih =>
    rw [List.map_cons, List.contains_cons, List.find?_cons]
    cases hpk : p.1 == k with
    | true => simp [strBeq_comm k p.1, hpk]
    | false => simpa [strBeq_comm k p.1, hpk] using ih

theorem firstOccAux_cons (acc : List String) (u : String) (us : List String) :
    firstOccAux acc (u :: us) =
      firstOccAux (if acc.contains u then acc else acc ++ [u]) us := rfl

/-- `processSpan` and the fold over all spans preserve: the counter is one
past the map size, ids are `1, 2, …` in insertion order, keys accumulate
in first-appearance order, existing entries are stable, and every
emitted id is the final map's id for the span's resolved URL. -/
theorem cvtFold_inv (o : UrlOracle) (baseUrl : String) :
    ∀ (pairs : List (String × Span)) (st : CvtState),
      st.counter = st.linkMap.length + 1 →
      st.linkMap.map (fun p => p.2.refNum) = List.range' 1 st.linkMap.length →
      (cvtFold o baseUrl st pairs).counter =
          (cvtFold o baseUrl st pairs).linkMap.length + 1 ∧
      (cvtFold o baseUrl st pairs).linkMap.map (fun p => p.2.refNum) =
          List.range' 1 (cvtFold o baseUrl st pairs).linkMap.length ∧
      (cvtFold o baseUrl st pairs).linkMap.map (fun p => p.1) =
          firstOccAux (st.linkMap.map (fun p => p.1))
            (pairs.map (fun p => resolveSpanUrl o baseUrl p.2.url)) ∧
      (∀ k v, st.linkMap.find? (fun p => p.1 == k) = some v →
        (cvtFold o baseUrl st pairs).linkMap.find? (fun p => p.1 == k) = some v) ∧
      (cvtFold o baseUrl st pairs).nums =
          st.nums ++ pairs.map (fun p =>
            lookupRefNum (cvtFold o baseUrl st pairs).linkMap
              (resolveSpanUrl o baseUrl p.2.url)) := by
  intro pairs
  induction pairs with
  | nil =>
    intro st hc hr
    refine ⟨hc, hr, rfl, fun k v hv => hv, by simp [cvtFold]⟩
  | cons p rest ih =>
    intro st hc hr
    have hstep : cvtFold o baseUrl st (p :: rest) =
        cvtFold o baseUrl (processSpan o baseUrl st p.1 p.2) rest := rfl
    set k0 := resolveSpanUrl o baseUrl p.2.url with hk0
    set st' := processSpan o baseUrl st p.1 p.2 with hst'
    have hfound :
        (st'.linkMap = st.linkMap ∧ st'.counter = st.counter ∧
          (st.linkMap.find? (fun q => q.1 == k0)).isSome = true) ∨
        (st'.linkMap = st.linkMap ++
            [(k0, ⟨st.counter, spanDescription p.2.text p.2.title⟩)] ∧
          st'.counter = st.counter + 1 ∧
          (st.linkMap.find? (fun q => q.1 == k0)).isSome = false) := by
      cases hf : (st.linkMap.find? (fun q => q.1 == k0)).isSome with
      | true =>
        left
        refine ⟨?_, ?_, rfl⟩ <;> simp [hst', processSpan, ← hk0, hf]
      | false =>
        right
        refine ⟨?_, ?_, rfl⟩ <;> simp [hst', processSpan, ← hk0, hf]
    have hpresent : (st'.linkMap.find? (fun q => q.1 == k0)).isSome = true := by
      rcases hfound with ⟨hm, _, hf⟩ | ⟨hm, _, hf⟩
      · rw [hm]; exact hf
      · have hnone : st.linkMap.find? (fun q => q.1 == k0) = none := by
          cases hfi : st.linkMap.find? (fun q => q.1 == k0) with
          | none => rfl
          | some v => rw [hfi] at hf; simp at hf
        rw [hm, List.find?_append, hnone, Option.none_or]
        simp [List.find?_cons]
    have hnums' : st'.nums = st.nums ++ [lookupRefNum st'.linkMap k0] := rfl
    have hc' : st'.counter = st'.linkMap.length + 1 := by
      rcases hfound with ⟨hm, hcnt, _⟩ | ⟨hm, hcnt, _⟩ <;> rw [hm, hcnt] <;> simp [hc]
    have hr' : st'.linkMap.map (fun q => q.2.refNum) =
        List.range' 1 st'.linkMap.length := by
      rcases hfound with ⟨hm, _, _⟩ | ⟨hm, _, _⟩
      · rw [hm]; exact hr
      · rw [hm]
        simp only [List.map_append, List.length_append, List.map_cons, List.map_nil,
          List.length_cons, List.length_nil, Nat.zero_add]
        rw [hr, hc]
        have hcat : List.range' 1 (st.linkMap.length + 1) =
            List.range' 1 st.linkMap.length ++ [1 + st.linkMap.length] := by
          have := @List.range'_concat 1 1 st.linkMap.length
          simpa using this
        rw [hcat]
        simp [Nat.add_comm]
    obtain ⟨ihc, ihr, ihkeys, ihstable, ihnums⟩ := ih st' hc' hr'
    rw [hstep]
    refine ⟨ihc, ihr, ?_, ?_, ?_⟩
    · rw [ihkeys]
      simp only [List.map_cons]
      rw [firstOccAux_cons]
      have hkeys' : st'.linkMap.map (fun q => q.1) =
          (if (st.linkMap.map (fun q => q.1)).contains k0
            then st.linkMap.map (fun q => q.1)
            else st.linkMap.map (fun q => q.1) ++ [k0]) := by
        rcases hfound with ⟨hm, _, hf⟩ | ⟨hm, _, hf⟩
        · rw [hm, if_pos]
          rw [contains_keys_iff, hf]
        · rw [hm, if_neg]
          · simp
          · rw [contains_keys_iff, hf]
            simp
      rw [hkeys']
    · intro k v hv
      refine ihstable k v ?_
      rcases hfound with ⟨hm, _, _⟩ | ⟨hm, _, _⟩
      · rw [hm]; exact hv
      · rw [hm, List.find?_append, hv]
        rfl
    · rw [ihnums, hnums']
      simp only [List.map_cons, List.append_assoc, List.singleton_append]
      obtain ⟨v0, hv0⟩ := Option.isSome_iff_exists.mp hpresent
      have hlook : lookupRefNum st'.linkMap k0 =
          lookupRefNum (cvtFold o baseUrl st' rest).linkMap k0 := by
        rw [lookupRefNum, lookupRefNum, hv0, ihstable k0 v0 hv0]
      rw [hlook]

/-- Insertion-ordered ids `1, 2, …` make the link map already sorted. -/
theorem pairwise_refNum_of_range {l : List (String × RefInfo)}
    (h : l.map (fun p => p.2.refNum) = List.range' 1 l.length) :
    l.Pairwise (fun a b => a.2.refNum ≤ b.2.refNum) := by
  have hp : (l.map (fun p => p.2.refNum)).Pairwise (· ≤ ·) := by
    rw [h]
    exact (List.pairwise_lt_range' 1 l.length).imp le_of_lt
  exact (List.pairwise_map).mp hp

/-- C4: reference ids are exactly `1, 2, 3, …` in order of first
appearance of each distinct resolved URL; spans resolving to the same
absolute URL receive the same id (each emitted id is the final map's id
for that span's resolved URL); and the references block lists entries in
ascending id order (the sort is the identity). -/
theorem claim_C4 (o : UrlOracle) (markdown baseUrl : String) :
    (refEntries o markdown baseUrl).map (fun p => p.2.refNum) =
        List.range' 1 (refEntries o markdown baseUrl).length ∧
    (refEntries o markdown baseUrl).map (fun p => p.1) =
        firstOccurrences (((scanSpans markdown).1).map
          (fun p => resolveSpanUrl o baseUrl p.2.url)) ∧
    sortedRefEntries o markdown baseUrl = refEntries o markdown baseUrl ∧
    spanRefNums o markdown baseUrl =
        ((scanSpans markdown).1).map (fun p =>
          lookupRefNum (refEntries o markdown baseUrl)
            (resolveSpanUrl o baseUrl p.2.url)) := by
  obtain ⟨_, hr, hkeys, _, hnums⟩ :=
    cvtFold_inv o baseUrl (scanSpans markdown).1 ⟨[], [], 1, []⟩ rfl rfl
  refine ⟨hr, ?_, ?_, ?_⟩
  · exact hkeys
  · have hsorted := pairwise_refNum_of_range hr
    have hb : (refEntries o markdown baseUrl).Pairwise
        (fun a b => (decide (a.2.refNum ≤ b.2.refNum) = true)) :=
      hsorted.imp (fun h => by simpa using h)
    exact List.mergeSort_of_sorted hb
  · simpa using hnums

/-! ## Claim C6: table serialization -/

/-- C6, counterexample: the serializer in src/html2text.ts pads the
separator row with spaces (`| --- | --- |`), so the claimed exact output
with `|---|---|` is not produced. -/
theorem claim_C6_counterexample :
    aProcTable (jsProcChildren (aDom defaultH2TOptions failOracle "" 5)) tableAB ≠
      "| A | B |\n|---|---|\n| 1 | 2 |\n" := by
  decide

/-- C6, amended: the exact output has the separator cells padded like the
content cells: `| A | B |\n| --- | --- |\n| 1 | 2 |\n`.  (The
synchronous variant of the serializer produces the claimed unpadded
separator, which is where the claim's string comes from.) -/
theorem claim_C6_amended :
    aProcTable (jsProcChildren (aDom defaultH2TOptions failOracle "" 5)) tableAB =
      "| A | B |\n| --- | --- |\n| 1 | 2 |\n" ∧
    sProcTable tableAB = "| A | B |\n|---|---|\n| 1 | 2 |\n" := by
  constructor <;> decide

/-! ## Claim C9: the async and sync serializers -/

theorem dropWhile_dropWhile (p : Char → Bool) (l : List Char) :
    (l.dropWhile p).dropWhile p = l.dropWhile p := by
  induction l with
  | nil => rfl
  | cons c cs ih =>
    by_cases h : p c = true <;> simp [List.dropWhile_cons, h, ih]

/-- A prefix of a list that starts with a non-`p` element (or is empty)
also starts with a non-`p` element. -/
theorem IsPrefix.dropWhile_eq_self {p : Char → Bool} {y x : List Char}
    (hpre : y <+: x) (hx : x.dropWhile p = x) : y.dropWhile p = y := by
  cases y with
  | nil => rfl
  | cons c ys =>
    obtain ⟨t, ht⟩ := hpre
    have hc : p c = false := by
      by_contra hc
      simp only [Bool.not_eq_false] at hc
      rw [← ht] at hx
      rw [List.cons_append, List.dropWhile_cons, if_pos hc] at hx
      have hlen : ((ys ++ t).dropWhile p).length ≤ (ys ++ t).length :=
        (List.dropWhile_sublist p).length_le
      have := congrArg List.length hx
      simp at this hlen
      omega
    rw [List.dropWhile_cons, hc]
    simp

/-- JS `trim` is idempotent. -/
theorem trimL_idem (l : List Char) : trimL (trimL l) = trimL l := by
  unfold trimL
  set u := l.dropWhile wsChar with hu
  have hDu : u.dropWhile wsChar = u := by
    rw [hu]; exact dropWhile_dropWhile wsChar l
  set v := u.reverse.dropWhile wsChar with hv
  have hpre : v.reverse <+: u := by
    rw [← List.reverse_suffix]
    simp only [List.reverse_reverse]
    rw [hv]
    exact List.dropWhile_suffix wsChar
  have hDrv : v.reverse.dropWhile wsChar = v.reverse :=
    IsPrefix.dropWhile_eq_self hpre hDu
  rw [hDrv, List.reverse_reverse, hv, dropWhile_dropWhile]

theorem strTrim_idem (s : String) : strTrim (strTrim s) = strTrim s := by
  unfold strTrim
  exact congrArg String.mk (trimL_idem s.data)

/-- C9, counterexample: on a body consisting of the text node `" a "`,
the async serializer yields `" a "` while the synchronous variant trims
its `processChildren` result and yields `"a"`. -/
theorem claim_C9_counterexample :
    handleSync defaultH2TOptions failOracle "" (.elem "body" [] [.text " a "]) ≠
      handleAsync defaultH2TOptions failOracle "" (.elem "body" [] [.text " a "]) := by
  decide

theorem goodList_mem {cs : List Dom} (h : goodList cs = true) :
    ∀ d ∈ cs, goodDom d = true := by
  induction cs with
  | nil => intro d hd; simp at hd
  | cons c cs ih =>
    simp only [goodList, Bool.and_eq_true] at h
    intro d hd
    rcases List.mem_cons.mp hd with rfl | hd
    · exact h.1
    · exact ih h.2 d hd

theorem goodDom_childrenOf {el : Dom} (h : goodDom el = true) :
    goodList (Dom.childrenOf el) = true := by
  cases el with
  | text s => rfl
  | comment s => rfl
  | elem t a cs =>
    simp only [goodDom, Bool.and_eq_true] at h
    exact h.2

theorem descElemsF_cons (fuel : Nat) (d : Dom) (ds : List Dom) :
    Dom.descElemsF (fuel + 1) (d :: ds) =
      (match d with
       | .elem t a cs => .elem t a cs :: (Dom.descElemsF fuel cs ++ Dom.descElemsF (fuel + 1) ds)
       | _ => Dom.descElemsF (fuel + 1) ds) := by
  cases d <;> rfl

/-- Goodness propagates to all descendants. -/
theorem goodList_descElemsF :
    ∀ (fuel : Nat) (cs : List Dom), goodList cs = true →
      ∀ d ∈ Dom.descElemsF fuel cs, goodDom d = true := by
  intro fuel
  induction fuel with
  | zero => intro cs _ d hd; simp [Dom.descElemsF] at hd
  | succ fuel ih =>
    intro cs h d hd
    induction cs with
    | nil => simp [Dom.descElemsF] at hd
    | cons c cs' ihl =>
      simp only [goodList, Bool.and_eq_true] at h
      rw [descElemsF_cons] at hd
      cases c with
      | text s => exact ihl h.2 hd
      | comment s => exact ihl h.2 hd
      | elem t a cs2 =>
        have hc := h.1
        simp only [goodDom, Bool.and_eq_true] at hc
        rcases List.mem_cons.mp hd with rfl | hd2
        · exact h.1
        · rcases List.mem_append.mp hd2 with hd3 | hd3
          · exact ih cs2 hc.2 d hd3
          · exact ihl h.2 hd3

/-- Goodness propagates through `querySelectorAll`. -/
theorem goodDom_queryTag {t : String} {el d : Dom} (hel : goodDom el = true)
    (hd : d ∈ Dom.queryTag t el) : goodDom d = true := by
  cases el with
  | text s => simp [Dom.queryTag] at hd
  | comment s => simp [Dom.queryTag] at hd
  | elem t2 a2 cs =>
    simp only [goodDom, Bool.and_eq_true] at hel
    simp only [Dom.queryTag, List.mem_filter] at hd
    exact goodList_descElemsF _ cs hel.2 d hd.1

theorem mem_enumFrom_snd :
    ∀ (l : List α) (n : Nat) (p : Nat × α), p ∈ l.enumFrom n → p.2 ∈ l := by
  intro l
  induction l with
  | nil => intro n p hp; simp [List.enumFrom] at hp
  | cons a as ihl =>
    intro n p hp
    simp only [List.enumFrom, List.mem_cons] at hp
    rcases hp with rfl | hp
    · simp
    · exact List.mem_cons_of_mem _ (ihl (n + 1) p hp)

theorem mem_enum_snd (l : List α) (p : Nat × α) (h : p ∈ l.enum) : p.2 ∈ l :=
  mem_enumFrom_snd l 0 p h

/-- Given agreement of the recursive renderers, the synchronous
`processChildren` is the async one followed by a trim. -/
theorem procChildren_agree {opts : H2TOptions} {o : UrlOracle} {baseUrl : String} {fuel : Nat}
    (ih : ∀ ptag d, goodDom d = true →
      sDom opts o baseUrl fuel ptag d = aDom opts o baseUrl fuel ptag d) :
    ∀ (tag : String) (cs : List Dom), goodList cs = true →
      sProcChildren (fun ptag e => sDom opts o baseUrl fuel ptag e) tag cs =
        strTrim (jsProcChildren (fun ptag e => aDom opts o baseUrl fuel ptag e) tag cs) := by
  intro tag cs h
  have hmap : cs.map (fun n =>
        match n with
        | .text s => collapseWs s
        | .comment _ => ""
        | e => sDom opts o baseUrl fuel tag e) =
      cs.map (fun n =>
        match n with
        | .text s => collapseWs s
        | .comment _ => ""
        | e => aDom opts o baseUrl fuel tag e) := by
    apply List.map_congr_left
    intro d hd
    cases d with
    | text s => rfl
    | comment s => rfl
    | elem t2 a2 cs2 => exact ih tag _ (goodList_mem h _ hd)
  simp only [sProcChildren, jsProcChildren]
  rw [hmap]

/-- Given agreement of the recursive renderers, `processList` agrees. -/
theorem procList_agree {opts : H2TOptions} {o : UrlOracle} {baseUrl : String} {fuel : Nat}
    (ih : ∀ ptag d, goodDom d = true →
      sDom opts o baseUrl fuel ptag d = aDom opts o baseUrl fuel ptag d)
    (marker : String) (el : Dom) (hel : goodDom el = true) :
    jsProcList (sProcChildren (fun ptag e => sDom opts o baseUrl fuel ptag e)) marker el =
      jsProcList (jsProcChildren (fun ptag e => aDom opts o baseUrl fuel ptag e)) marker el := by
  unfold jsProcList
  congr 1
  apply List.map_congr_left
  intro p hp
  have hli := mem_enum_snd _ p hp
  have hgood := goodDom_queryTag hel hli
  rw [procChildren_agree ih "li" _ (goodDom_childrenOf hgood), strTrim_idem]

/-- Given agreement of the recursive renderers, `processBlockquote`
agrees. -/
theorem procBlockquote_agree {opts : H2TOptions} {o : UrlOracle} {baseUrl : String} {fuel : Nat}
    (ih : ∀ ptag d, goodDom d = true →
      sDom opts o baseUrl fuel ptag d = aDom opts o baseUrl fuel ptag d)
    (el : Dom) (hel : goodDom el = true) :
    jsProcBlockquote (sProcChildren (fun ptag e => sDom opts o baseUrl fuel ptag e)) el =
      jsProcBlockquote (jsProcChildren (fun ptag e => aDom opts o baseUrl fuel ptag e)) el := by
  unfold jsProcBlockquote
  rw [procChildren_agree ih "blockquote" _ (goodDom_childrenOf hel), strTrim_idem]

/-- On documents whose elements all carry explicitly dispatched non-table
tags, the synchronous `domToMarkdown` agrees with the async one. -/
theorem h2t_dom_agree (opts : H2TOptions) (o : UrlOracle) (baseUrl : String) :
    ∀ (fuel : Nat) (ptag : String) (d : Dom), goodDom d = true →
      sDom opts o baseUrl fuel ptag d = aDom opts o baseUrl fuel ptag d := by
  intro fuel
  induction fuel with
  | zero => intro ptag d _; rfl
  | succ fuel ih =>
    intro ptag d h
    cases d with
    | text s => rfl
    | comment s => rfl
    | elem t a cs =>
      have hgood := h
      simp only [goodDom, Bool.and_eq_true] at h
      obtain ⟨htag, hcs⟩ := h
      have hpc := @procChildren_agree opts o baseUrl fuel ih
      have htag' : t ∈ handledTags := by simpa using htag
      simp only [handledTags, List.mem_cons, List.not_mem_nil, or_false] at htag'
      rcases htag' with rfl|rfl|rfl|rfl|rfl|rfl|rfl|rfl|rfl|rfl|rfl|rfl|rfl|rfl|rfl|rfl|rfl|rfl|rfl|rfl|rfl|rfl|rfl
      all_goals simp only [sDom, aDom]
      all_goals
        first
          | rfl
          | (rw [hpc _ cs hcs, strTrim_idem])
          | (rw [procList_agree ih _ _ hgood])
          | (rw [procBlockquote_agree ih _ hgood])

/-- C9, amended: the synchronous variant additionally trims every
`processChildren` concatenation (and serializes tables differently), so
the two serializers do not agree in general; on documents whose body
content uses only the explicitly dispatched non-table tags, the
synchronous output is exactly the async output trimmed. -/
theorem claim_C9_amended (opts : H2TOptions) (o : UrlOracle) (baseUrl : String)
    (attrs : List (String × String)) (children : List Dom)
    (h : goodList (Dom.childrenOf (cleanDocDom (Dom.elem "body" attrs children))) = true) :
    handleSync opts o baseUrl (Dom.elem "body" attrs children) =
      strTrim (handleAsync opts o baseUrl (Dom.elem "body" attrs children)) := by
  unfold handleSync handleAsync
  have hcd : cleanDocDom (Dom.elem "body" attrs children) =
      Dom.elem "body" attrs
        (cleanDocF (Dom.size (Dom.elem "body" attrs children)) children) := rfl
  rw [hcd] at h ⊢
  simp only [Dom.childrenOf] at h
  simp only [sDom, aDom]
  exact procChildren_agree
    (h2t_dom_agree opts o baseUrl (Dom.size (Dom.elem "body" attrs children))) "body" _ h

/-- C9, witness for the amended claim on a concrete document. -/
theorem claim_C9_witness :
    handleSync defaultH2TOptions failOracle ""
        (Dom.elem "body" [] [.elem "p" [] [.text "Hi there"]]) =
      strTrim (handleAsync defaultH2TOptions failOracle ""
        (Dom.elem "body" [] [.elem "p" [] [.text "Hi there"]])) :=
  claim_C9_amended defaultH2TOptions failOracle "" [] [.elem "p" [] [.text "Hi there"]]
    (by decide)

end HCP
